import Mathlib

/-!
Verification of the embedded JSON subsystem of the pxshot C SDK.

This file gives a shallow embedding of the JSON code in
src/include/cJSON.h (the minimal header-only cJSON implementation) and
of the growable byte buffer in src/include/pxshot.h
(pxshot_write_callback), and proves or refutes the specification
claims about them.

Modelling conventions:
* C byte strings are modelled as List Char; the terminating NUL byte
  is not part of the list.  Reading the terminator is modelled by
  functions that return the NUL character (Char.ofNat 0) at the end of
  the list (headDflt below).  Positions strictly beyond the
  terminator, which a C program may only reach through undefined
  behaviour, are modelled as end-of-input.
* C doubles are modelled as exact rationals (Rat).  All double
  computations appearing in the claims (small integers, halves,
  values near 1, DBL_EPSILON comparisons) are exact in binary64, so
  the rational model agrees with the C semantics at every value the
  theorems below touch.
* malloc/realloc/strdup are modelled as always succeeding except where
  a claim is specifically about allocation failure (the growable
  buffer's realloc, which takes an explicit success flag).
* The claims count allocated *nodes*; the parser model therefore
  threads an explicit counter of cJSON_New_Item calls.
-/

/-! ## Characters -/

/-- The double-quote character. -/
def qCh : Char := Char.ofNat 34

/-- The backslash character. -/
def bsCh : Char := Char.ofNat 92

/-- The opening brace character. -/
def lbrCh : Char := Char.ofNat 123

/-- The closing brace character. -/
def rbrCh : Char := Char.ofNat 125

/-- The NUL character, modelling the C string terminator. -/
def nulCh : Char := Char.ofNat 0

/-- Reading the current byte of the cursor: the head of the remaining
input, or the NUL terminator when the input is exhausted. -/
def headDflt (s : List Char) : Char := s.headD nulCh

/-! ## The cJSON structure

The C struct cJSON has fields next, prev, child, type, valuestring,
valueint, valuedouble, string.  The sibling chain (next/prev) of the
children of a node is modelled as a List; prev pointers carry no
independent information.  The scalar fields are collected in JData so
that the record-update syntax can mirror the C field assignments. -/

structure JData where
  type : Nat
  valuestring : Option (List Char)
  valueint : Int
  valuedouble : Rat
  string : Option (List Char)
deriving DecidableEq, Repr

inductive cJSON where
  | node (data : JData) (children : List cJSON)

/-- Scalar fields of a node. -/
def cJSON.data : cJSON → JData
  | .node d _ => d

/-- Child list of a node (the C child pointer plus the sibling chain). -/
def cJSON.children : cJSON → List cJSON
  | .node _ c => c

def cJSON.type (it : cJSON) : Nat := it.data.type
def cJSON.valuestring (it : cJSON) : Option (List Char) := it.data.valuestring
def cJSON.valueint (it : cJSON) : Int := it.data.valueint
def cJSON.valuedouble (it : cJSON) : Rat := it.data.valuedouble
def cJSON.string (it : cJSON) : Option (List Char) := it.data.string

/-- cJSON_New_Item: a fresh node, memset to zero. -/
def cJSON_New_Item : cJSON := .node ⟨0, none, 0, 0, none⟩ []

mutual

/-- Decidable equality of nodes (used only to state and check theorems). -/
def cJSON.decEq : (a b : cJSON) → Decidable (a = b)
  | .node d cs, .node e es =>
    if hd : d = e then
      match cJSON.decEqList cs es with
      | isFalse h => isFalse (fun hh => by cases hh; exact h rfl)
      | isTrue hc => isTrue (by rw [hd, hc])
    else isFalse (fun hh => by cases hh; exact hd rfl)

/-- Decidable equality of node lists. -/
def cJSON.decEqList : (as bs : List cJSON) → Decidable (as = bs)
  | [], [] => isTrue rfl
  | [], _ :: _ => isFalse (fun h => by cases h)
  | _ :: _, [] => isFalse (fun h => by cases h)
  | a :: as, b :: bs =>
    match cJSON.decEq a b with
    | isFalse h => isFalse (fun hh => by cases hh; exact h rfl)
    | isTrue h1 =>
      match cJSON.decEqList as bs with
      | isFalse h => isFalse (fun hh => by cases hh; exact h rfl)
      | isTrue h2 => isTrue (by rw [h1, h2])

end

instance : DecidableEq cJSON := cJSON.decEq

mutual

/-- Number of nodes in a subtree (the root plus all descendants). -/
def nodeCount : cJSON → Nat
  | .node _ cs => 1 + nodeCountList cs

/-- Total node count of a list of subtrees. -/
def nodeCountList : List cJSON → Nat
  | [] => 0
  | c :: cs => nodeCount c + nodeCountList cs

end

/-! ## Exact rational arithmetic

C doubles are modelled as exact rationals.  The toolchain marks
Rat.add, Rat.mul, Rat.sub and Rat.inv irreducible, which would block
kernel evaluation of the model on concrete inputs, so the model uses
the following definitionally evaluable forms built on mkRat; the
bridge lemmas right below prove each one equal to the corresponding
Mathlib operation, and the algebraic proofs work through those. -/

/-- Exact rational multiplication (equals a * b, see qmul_eq). -/
def qmul (a b : Rat) : Rat := mkRat (a.num * b.num) (a.den * b.den)

/-- Exact rational addition (equals a + b, see qadd_eq). -/
def qadd (a b : Rat) : Rat := mkRat (a.num * b.den + b.num * a.den) (a.den * b.den)

/-- Exact rational negation (equals -a, see qneg_eq). -/
def qneg (a : Rat) : Rat := mkRat (-a.num) a.den

/-- Exact rational subtraction (equals a - b, see qsub_eq). -/
def qsub (a b : Rat) : Rat := qadd a (qneg b)

/-- Exact rational absolute value (equals |a|, see qabs_eq). -/
def qabs (a : Rat) : Rat := mkRat a.num.natAbs a.den

/-- The exact value of pow(10.0, z) for an integer z (equals
(10 : Rat) ^ z, see qpow10_eq); exact for every power the claims
touch. -/
def qpow10 (z : Int) : Rat :=
  if 0 ≤ z then mkRat ((10 : Nat) ^ z.toNat) 1 else mkRat 1 ((10 : Nat) ^ (-z).toNat)

theorem qmul_eq (a b : Rat) : qmul a b = a * b := by
  rw [qmul, Rat.mul_def, Rat.normalize_eq_mkRat]

theorem qadd_eq (a b : Rat) : qadd a b = a + b := by
  rw [qadd, Rat.add_def, Rat.normalize_eq_mkRat]

theorem qneg_eq (a : Rat) : qneg a = -a := by
  rw [qneg, Rat.neg_def]
  simp [Rat.neg_mkRat, Rat.mkRat_self]

theorem qsub_eq (a b : Rat) : qsub a b = a - b := by
  rw [qsub, qadd_eq, qneg_eq, sub_eq_add_neg]

theorem qabs_eq (a : Rat) : qabs a = |a| := by
  rcases le_or_lt 0 a with h | h
  · have hn : 0 ≤ a.num := Rat.num_nonneg.mpr h
    rw [abs_of_nonneg h, qabs]
    have : (a.num.natAbs : Int) = a.num := Int.natAbs_of_nonneg hn
    rw [this, Rat.mkRat_self]
  · have hn : a.num < 0 := Rat.num_neg.mpr h
    rw [abs_of_neg h, qabs, ← qneg_eq, qneg]
    congr 1
    omega

theorem qpow10_eq (z : Int) : qpow10 z = (10 : Rat) ^ z := by
  rw [qpow10]
  split
  · rename_i h
    rw [Rat.mkRat_eq_div]
    push_cast
    rw [div_one, ← zpow_natCast, Int.toNat_of_nonneg h]
  · rename_i h
    push_neg at h
    rw [Rat.mkRat_eq_div]
    push_cast
    rw [one_div]
    conv_rhs => rw [show z = -(((-z).toNat : Nat) : Int) by omega]
    rw [zpow_neg, zpow_natCast]


/-- skip_whitespace: advance while the current byte is nonzero and at
most 32.  The NUL terminator (end of list) stops the loop. -/
def skip_whitespace : List Char → List Char
  | [] => []
  | c :: cs => if c ≠ nulCh ∧ c.toNat ≤ 32 then skip_whitespace cs else c :: cs

/-- The scanning loop of parse_string: starting just after the opening
quote, walk to the closing unescaped quote, skipping the byte after
each backslash unconditionally.  Returns the raw slice between the
quotes and the remaining input after the closing quote.  When the
input ends (or an embedded NUL is reached) before a closing quote, the
loop stops at the terminator and the remainder is empty, mirroring
end_ptr + 1 pointing past the terminating NUL. -/
def scan_string : List Char → List Char × List Char
  | [] => ([], [])
  | c :: cs =>
    if c = qCh then ([], cs)
    else if c = nulCh then ([], [])
    else if c = bsCh then
      match cs with
      | [] => ([c], [])
      | d :: ds =>
        let r := scan_string ds
        (c :: d :: r.1, r.2)
    else
      let r := scan_string cs
      (c :: r.1, r.2)

/-- The copying loop of parse_string: decode the raw slice between the
quotes, translating the recognized escapes and skipping 4 bytes after
a unicode escape.  A backslash at the very end of the slice makes the
C loop read the byte past the slice; that byte is the terminator in
the only reachable case, and the default branch copies it (a NUL). -/
def decode_string : List Char → List Char
  | [] => []
  | c :: cs =>
    if c ≠ bsCh then c :: decode_string cs
    else
      match cs with
      | [] => [nulCh]
      | e :: es =>
        if e = 'b' then Char.ofNat 8 :: decode_string es
        else if e = 'f' then Char.ofNat 12 :: decode_string es
        else if e = 'n' then Char.ofNat 10 :: decode_string es
        else if e = 'r' then Char.ofNat 13 :: decode_string es
        else if e = 't' then Char.ofNat 9 :: decode_string es
        else if e = 'u' then
          match es with
          | _ :: _ :: _ :: _ :: rest => decode_string rest
          | _ => []
        else e :: decode_string es

/-- Truncation of a rational toward zero, modelling the C cast
(int)d of a double (at the in-range values the claims use). -/
def truncQ (q : Rat) : Int := if 0 ≤ q then Rat.floor q else Rat.ceil q

/-- Digit test for a character, modelling c >= '0' && c <= '9'. -/
def isDig (c : Char) : Bool := 48 ≤ c.toNat && c.toNat ≤ 57

/-- The digit accumulation loop of parse_number:
n = (n * 10.0) + (*num++ - '0') while the current byte is a digit. -/
def digit_loop (n : Rat) : List Char → Rat × List Char
  | [] => (n, [])
  | c :: cs =>
    if isDig c then digit_loop (qadd (qmul n 10) ((c.toNat - 48 : Nat) : Rat)) cs
    else (n, c :: cs)

/-- The fractional-digit loop of parse_number: same accumulation, and
scale decreases by one per digit. -/
def frac_loop (n : Rat) (scale : Int) : List Char → Rat × Int × List Char
  | [] => (n, scale, [])
  | c :: cs =>
    if isDig c then
      frac_loop (qadd (qmul n 10) ((c.toNat - 48 : Nat) : Rat)) (scale - 1) cs
    else (n, scale, c :: cs)

/-- The exponent-digit loop of parse_number:
subscale = (subscale * 10) + (*num++ - '0'). -/
def exp_loop (subscale : Int) : List Char → Int × List Char
  | [] => (subscale, [])
  | c :: cs =>
    if isDig c then exp_loop (subscale * 10 + (c.toNat - 48 : Nat)) cs
    else (subscale, c :: cs)

/-- parse_number: optional minus sign, optional single leading zero,
integer digits, optional fraction introduced by a dot followed by a
digit, optional exponent.  Always succeeds; the value is
sign * n * 10 ^ (scale + subscale * signsubscale).  Returns the value
and the remaining input. -/
def parse_number (num : List Char) : Rat × List Char :=
  let p0 := if headDflt num = '-' then ((-1 : Rat), num.drop 1) else ((1 : Rat), num)
  let sign := p0.1
  let s1 := p0.2
  let s2 := if headDflt s1 = '0' then s1.drop 1 else s1
  let p1 := if 49 ≤ (headDflt s2).toNat ∧ (headDflt s2).toNat ≤ 57 then
              digit_loop 0 s2
            else ((0 : Rat), s2)
  let n0 := p1.1
  let s3 := p1.2
  let p2 := if headDflt s3 = '.' ∧ isDig (headDflt (s3.drop 1)) then
              frac_loop n0 0 (s3.drop 1)
            else (n0, (0 : Int), s3)
  let n1 := p2.1
  let scale := p2.2.1
  let s4 := p2.2.2
  let p3 :=
    if headDflt s4 = 'e' ∨ headDflt s4 = 'E' then
      let s5 := s4.drop 1
      let p4 := if headDflt s5 = '+' then ((1 : Int), s5.drop 1)
                else if headDflt s5 = '-' then ((-1 : Int), s5.drop 1)
                else ((1 : Int), s5)
      let p5 := exp_loop 0 p4.2
      (p4.1 * p5.1, p5.2)
    else ((0 : Int), s4)
  let subscaled := p3.1
  let s6 := p3.2
  (qmul (qmul sign n1) (qpow10 (scale + subscaled)), s6)

/-- The opening bracket character. -/
def lbkCh : Char := Char.ofNat 91

/-- The closing bracket character. -/
def rbkCh : Char := Char.ofNat 93

/-- Update the scalar fields of a node, mirroring C assignments to
item fields. -/
def cJSON.updData (it : cJSON) (f : JData → JData) : cJSON :=
  .node (f it.data) it.children

/-- Replace the child chain of a node, mirroring assignments through
item->child and the sibling next pointers. -/
def cJSON.withChildren (it : cJSON) (cs : List cJSON) : cJSON :=
  .node it.data cs

/-- Result of a parse function: the C functions mutate the passed item
and return the advanced cursor, or NULL on failure.  The fail case
carries the item in its partially filled state (in C it stays linked
wherever it already was). -/
inductive PRes where
  | ok (item : cJSON) (rest : List Char)
  | fail (item : cJSON)
deriving DecidableEq

/-! ## The recursive-descent parser

The mutual recursion of parse_value / parse_array / parse_object is
modelled with an explicit fuel parameter that strictly decreases at
every mutual call (including the iterations of the C while loops,
which are the loop functions below).  Out of fuel counts as failure;
cJSON_Parse below supplies fuel that is amply sufficient for its
input, so the model coincides with the C functions.

The second component of each result is the number of cJSON_New_Item
calls made during the call, used for the leak accounting. -/

mutual

/-- parse_value: dispatch on the current byte (after the literal
prefix checks), exactly in the C order. -/
def parse_value : Nat → cJSON → List Char → PRes × Nat
  | 0, item, _ => (.fail item, 0)
  | Nat.succ fuel, item, s =>
    if ("null".toList).isPrefixOf s then
      (.ok (item.updData fun d => {d with type := 4}) (s.drop 4), 0)
    else if ("false".toList).isPrefixOf s then
      (.ok (item.updData fun d => {d with type := 1}) (s.drop 5), 0)
    else if ("true".toList).isPrefixOf s then
      (.ok (item.updData fun d => {d with type := 2, valueint := 1}) (s.drop 4), 0)
    else if headDflt s = qCh then
      let r := scan_string (s.drop 1)
      (.ok (item.updData fun d =>
        {d with type := 16, valuestring := some (decode_string r.1)}) r.2, 0)
    else if headDflt s = '-' ∨ isDig (headDflt s) then
      let r := parse_number s
      (.ok (item.updData fun d =>
        {d with type := 8, valuedouble := r.1, valueint := truncQ r.1}) r.2, 0)
    else if headDflt s = lbkCh then parse_array fuel item s
    else if headDflt s = lbrCh then parse_object fuel item s
    else (.fail item, 0)

/-- parse_array: consume the opening bracket, handle the empty array,
then parse the first element and enter the comma loop.  Each element
node is allocated and linked into the tree before it is parsed, so a
failing element still hangs off the returned partial item. -/
def parse_array : Nat → cJSON → List Char → PRes × Nat
  | 0, item, _ => (.fail item, 0)
  | Nat.succ fuel, item, s =>
    if headDflt s ≠ lbkCh then (.fail item, 0)
    else
      let item1 := item.updData fun d => {d with type := 32}
      let s1 := skip_whitespace (s.drop 1)
      if headDflt s1 = rbkCh then (.ok item1 (s1.drop 1), 0)
      else
        match parse_value fuel cJSON_New_Item (skip_whitespace s1) with
        | (.fail c, n) => (.fail (item1.withChildren [c]), n + 1)
        | (.ok c rest, n) =>
          let r2 := parse_array_loop fuel item1 [c] (skip_whitespace rest)
          (r2.1, n + 1 + r2.2)

/-- The while loop of parse_array: while the current byte is a comma,
allocate and link a new element and parse into it; then expect the
closing bracket. -/
def parse_array_loop : Nat → cJSON → List cJSON → List Char → PRes × Nat
  | 0, item, acc, _ => (.fail (item.withChildren acc), 0)
  | Nat.succ fuel, item, acc, s =>
    if headDflt s = ',' then
      match parse_value fuel cJSON_New_Item (skip_whitespace (s.drop 1)) with
      | (.fail c, n) => (.fail (item.withChildren (acc ++ [c])), n + 1)
      | (.ok c rest, n) =>
        let r2 := parse_array_loop fuel item (acc ++ [c]) (skip_whitespace rest)
        (r2.1, n + 1 + r2.2)
    else if headDflt s = rbkCh then (.ok (item.withChildren acc) (s.drop 1), 0)
    else (.fail (item.withChildren acc), 0)

/-- parse_object: consume the opening brace, handle the empty object,
then parse the first key (via parse_string, whose result is promoted
from valuestring to string), the colon, the first value, and enter the
comma loop. -/
def parse_object : Nat → cJSON → List Char → PRes × Nat
  | 0, item, _ => (.fail item, 0)
  | Nat.succ fuel, item, s =>
    if headDflt s ≠ lbrCh then (.fail item, 0)
    else
      let item1 := item.updData fun d => {d with type := 64}
      let s1 := skip_whitespace (s.drop 1)
      if headDflt s1 = rbrCh then (.ok item1 (s1.drop 1), 0)
      else
        let s2 := skip_whitespace s1
        if headDflt s2 ≠ qCh then (.fail (item1.withChildren [cJSON_New_Item]), 1)
        else
          let r := scan_string (s2.drop 1)
          let child := cJSON_New_Item.updData fun d =>
            {d with type := 16, valuestring := none,
                    string := some (decode_string r.1)}
          let rest1 := skip_whitespace r.2
          if headDflt rest1 ≠ ':' then (.fail (item1.withChildren [child]), 1)
          else
            match parse_value fuel child (skip_whitespace (rest1.drop 1)) with
            | (.fail c, n) => (.fail (item1.withChildren [c]), n + 1)
            | (.ok c rest2, n) =>
              let r2 := parse_object_loop fuel item1 [c] (skip_whitespace rest2)
              (r2.1, n + 1 + r2.2)

/-- The while loop of parse_object: while the current byte is a comma,
allocate and link a new member, parse its key, colon and value; then
expect the closing brace. -/
def parse_object_loop : Nat → cJSON → List cJSON → List Char → PRes × Nat
  | 0, item, acc, _ => (.fail (item.withChildren acc), 0)
  | Nat.succ fuel, item, acc, s =>
    if headDflt s = ',' then
      let s1 := skip_whitespace (s.drop 1)
      if headDflt s1 ≠ qCh then
        (.fail (item.withChildren (acc ++ [cJSON_New_Item])), 1)
      else
        let r := scan_string (s1.drop 1)
        let child := cJSON_New_Item.updData fun d =>
          {d with type := 16, valuestring := none,
                  string := some (decode_string r.1)}
        let rest1 := skip_whitespace r.2
        if headDflt rest1 ≠ ':' then
          (.fail (item.withChildren (acc ++ [child])), 1)
        else
          match parse_value fuel child (skip_whitespace (rest1.drop 1)) with
          | (.fail c, n) => (.fail (item.withChildren (acc ++ [c])), n + 1)
          | (.ok c rest2, n) =>
            let r2 := parse_object_loop fuel item (acc ++ [c]) (skip_whitespace rest2)
            (r2.1, n + 1 + r2.2)
    else if headDflt s = rbrCh then (.ok (item.withChildren acc) (s.drop 1), 0)
    else (.fail (item.withChildren acc), 0)

end

/-- Fuel supplied by the entry point.  The mutual recursion depth of
the C parser is bounded by the input length; this bound is amply
sufficient (the round-trip proof below establishes sufficiency on the
inputs it needs). -/
def parseFuel (s : List Char) : Nat := 4 * s.length + 8

/-- cJSON_Parse with instrumentation: allocate the root node, skip
leading whitespace and parse one value.  The result carries the
number of cJSON_New_Item calls made by parse_value (the root is one
more allocation on top of this count). -/
def cJSON_Parse_instr (s : List Char) : PRes × Nat :=
  parse_value (parseFuel s) cJSON_New_Item (skip_whitespace s)

/-- cJSON_Parse: on failure the partial tree is destroyed and NULL is
returned; on success the tree is returned. -/
def cJSON_Parse (s : List Char) : Option cJSON :=
  match (cJSON_Parse_instr s).1 with
  | .ok t _ => some t
  | .fail _ => none

mutual

/-- Nodes freed for one chain entry of cJSON_Delete: the recursive
deletion of its child chain (skipped for reference nodes, which carry
bit 256 in type) plus the node itself.  String payloads are freed too
but the claims count nodes only. -/
def cJSON_Delete_node : cJSON → Nat
  | .node d cs =>
    (if d.type &&& 256 = 0 then cJSON_Delete_count cs else 0) + 1

/-- Number of nodes freed by cJSON_Delete walking a sibling chain. -/
def cJSON_Delete_count : List cJSON → Nat
  | [] => 0
  | it :: rest => cJSON_Delete_node it + cJSON_Delete_count rest

end

/-- Net node leak of one cJSON_Parse call: nodes allocated during the
attempt minus nodes freed before returning.  On failure the entry
point calls cJSON_Delete on the root; on success nothing is freed
(the tree is handed to the caller), so the leak is defined as 0. -/
def cJSON_Parse_leak (s : List Char) : Int :=
  match cJSON_Parse_instr s with
  | (.fail p, n) => ((n : Int) + 1) - cJSON_Delete_count [p]
  | (.ok _ _, _) => 0

/-! ## The serializer

print_array / print_object in C make a measuring pass and then a
writing pass; both passes serialize the same children in the same
order, so the produced text is the concatenation modelled here.
Allocation never fails in the model; print_value returns none exactly
where the C switch has no case (Invalid / Raw types) or where it would
dereference a NULL string (undefined behaviour). -/

/-- DBL_EPSILON of binary64, exactly 2 ^ (-52). -/
def DBL_EPSILON : Rat := mkRat 1 4503599627370496

/-- Little-endian base-10 digits of a natural number, with a
structural fuel argument so that the kernel can evaluate it (agrees
with Nat.digits 10 when the fuel covers the number, see
natDigits_eq). -/
def toDigitsRev : Nat → Nat → List Nat
  | _, 0 => []
  | 0, _ + 1 => []
  | fuel + 1, n + 1 => ((n + 1) % 10) :: toDigitsRev fuel ((n + 1) / 10)

/-- Little-endian base-10 digits (empty for zero). -/
def natDigits (n : Nat) : List Nat := toDigitsRev n n

/-- Decimal digits of a natural number, most significant first
(empty for zero), as characters. -/
def natChars (n : Nat) : List Char :=
  ((natDigits n).map (fun d => Char.ofNat (48 + d))).reverse

/-- The text sprintf("%d", k) produces. -/
def intChars (k : Int) : List Char :=
  if k = 0 then ['0']
  else if k < 0 then '-' :: natChars k.natAbs
  else natChars k.natAbs

/-- Number of base-10 digits of a natural number (0 for 0). -/
def digitCount (n : Nat) : Nat := (natDigits n).length

/-- The least m with q <= 10 ^ m. -/
def leastPow10GE (q : Nat) : Nat := if q ≤ 1 then 0 else digitCount (q - 1)

/-- The decimal exponent of a positive rational: the unique e with
10 ^ e <= a < 10 ^ (e + 1).  For a < 1 this is minus the least m
with a * 10 ^ m >= 1, i.e. with 10 ^ m at least den / num rounded
up. -/
def qlog10 (a : Rat) : Int :=
  if 1 ≤ a then ((digitCount (Rat.floor a).toNat - 1 : Nat) : Int)
  else -((leastPow10GE ((a.den + a.num.toNat - 1) / a.num.toNat) : Nat) : Int)

/-- Round to the nearest integer, ties to even (the rounding sprintf
applies when producing decimal digits; the values used by the claims
are never ties). -/
def roundHalfEven (q : Rat) : Int :=
  let f := Rat.floor q
  let r := qsub q (f : Rat)
  if r < mkRat 1 2 then f
  else if mkRat 1 2 < r then f + 1
  else if f % 2 = 0 then f else f + 1

/-- Remove trailing zero characters (the %g trailing-zero
suppression). -/
def stripZeros (l : List Char) : List Char :=
  (l.reverse.dropWhile (fun c => c = '0')).reverse

/-- The text sprintf("%g", q) produces, following C99 7.19.6.1: with
precision P = 6, round to 6 significant digits; let X be the decimal
exponent of the result; use fixed notation when -4 <= X < 6 and
scientific notation otherwise, in both cases removing trailing zeros
from the fractional part and a then-dangling decimal point.  The
scientific exponent has a sign and at least two digits. -/
def fmtG (q : Rat) : List Char :=
  if q = 0 then ['0']
  else
    let sgn : List Char := if q < 0 then ['-'] else []
    let a := qabs q
    let e := qlog10 a
    let scaled := qmul a (qpow10 (5 - e))
    let m0 := roundHalfEven scaled
    let m := if m0 = 1000000 then (100000 : Int) else m0
    let x := if m0 = 1000000 then e + 1 else e
    let ds := natChars m.toNat
    if -4 ≤ x ∧ x < 6 then
      if 0 ≤ x then
        let ip := ds.take (x.toNat + 1)
        let fp := stripZeros (ds.drop (x.toNat + 1))
        sgn ++ ip ++ (if fp = [] then [] else '.' :: fp)
      else
        let fp := stripZeros (List.replicate ((-x).toNat - 1) '0' ++ ds)
        sgn ++ '0' :: '.' :: fp
    else
      let fp := stripZeros (ds.drop 1)
      let ex := natChars x.natAbs
      let ex2 := if x.natAbs < 10 then '0' :: ex else ex
      sgn ++ ds.take 1 ++ (if fp = [] then [] else '.' :: fp) ++
        'e' :: (if x < 0 then '-' else '+') :: ex2

/-- print_number: "0" for an exactly-zero value; the plain integer
text when the value is within DBL_EPSILON of its stored integer
projection and within [INT_MIN, INT_MAX]; otherwise the %g text. -/
def print_number (it : cJSON) : List Char :=
  if it.valuedouble = 0 then ['0']
  else if qabs (qsub ((it.valueint : Int) : Rat) it.valuedouble) ≤ DBL_EPSILON ∧
          it.valuedouble ≤ 2147483647 ∧ -2147483648 ≤ it.valuedouble then
    intChars it.valueint
  else fmtG it.valuedouble

/-- print_string: wrap the raw text in double quotes, with no
escaping. -/
def print_string (s : List Char) : List Char := qCh :: s ++ [qCh]

/-- Join serialized children with comma separators. -/
def joinComma : List (List Char) → List Char
  | [] => []
  | [t] => t
  | t :: ts => t ++ ',' :: joinComma ts

mutual

/-- print_value: dispatch on the low byte of the type, as the C
switch does.  Types without a case (Invalid, Raw) yield none, as does
printing a String node with a NULL payload or an Object member with a
NULL key (both dereference NULL in C). -/
def print_value : cJSON → Option (List Char)
  | .node d cs =>
    let t := d.type &&& 255
    if t = 4 then some ("null".toList)
    else if t = 1 then some ("false".toList)
    else if t = 2 then some ("true".toList)
    else if t = 8 then some (print_number (.node d cs))
    else if t = 16 then
      match d.valuestring with
      | some s => some (print_string s)
      | none => none
    else if t = 32 then
      match print_list cs with
      | some parts => some (lbkCh :: (joinComma parts ++ [rbkCh]))
      | none => none
    else if t = 64 then
      match print_members cs with
      | some parts => some (lbrCh :: (joinComma parts ++ [rbrCh]))
      | none => none
    else none

/-- Serialized texts of the elements of an array, in order. -/
def print_list : List cJSON → Option (List (List Char))
  | [] => some []
  | c :: cs =>
    match print_value c, print_list cs with
    | some t, some ts => some (t :: ts)
    | _, _ => none

/-- Serialized key:value texts of the members of an object, in
order. -/
def print_members : List cJSON → Option (List (List Char))
  | [] => some []
  | .node d cs2 :: cs =>
    match d.string with
    | none => none
    | some k =>
      match print_value (.node d cs2), print_members cs with
      | some t, some ts => some ((print_string k ++ ':' :: t) :: ts)
      | _, _ => none

end

/-- cJSON_Print (and cJSON_PrintUnformatted): print_value with the
NULL-item guard. -/
def cJSON_Print : Option cJSON → Option (List Char)
  | none => none
  | some it => print_value it

/-! ## Construction API and lookup -/

/-- cJSON_CreateObject (allocation modelled as succeeding). -/
def cJSON_CreateObject : cJSON :=
  cJSON_New_Item.updData fun d => {d with type := 64}

/-- cJSON_CreateArray. -/
def cJSON_CreateArray : cJSON :=
  cJSON_New_Item.updData fun d => {d with type := 32}

/-- cJSON_CreateString: the payload is duplicated (strdup modelled as
succeeding). -/
def cJSON_CreateString (s : List Char) : cJSON :=
  cJSON_New_Item.updData fun d => {d with type := 16, valuestring := some s}

/-- cJSON_CreateNumber: stores the double and its truncated integer
projection. -/
def cJSON_CreateNumber (num : Rat) : cJSON :=
  cJSON_New_Item.updData fun d =>
    {d with type := 8, valuedouble := num, valueint := truncQ num}

/-- cJSON_CreateBool: cJSON_bool is an int; nonzero means true. -/
def cJSON_CreateBool (boolean : Int) : cJSON :=
  cJSON_New_Item.updData fun d => {d with type := if boolean ≠ 0 then 2 else 1}

/-- add_item_to_object: fails (returning 0, linking nothing) exactly
when object, item or string is NULL; otherwise stores the key on the
child (duplicated, or borrowed with the const flag) and appends the
child at the tail of the container's child chain.  The container's
type is never inspected.  Returns the updated container and the
cJSON_bool result. -/
def add_item_to_object (object : Option cJSON) (string : Option (List Char))
    (item : Option cJSON) (constant : Bool) : Option cJSON × Bool :=
  match object, item, string with
  | some o, some it, some key =>
    let it2 :=
      if constant then
        it.updData fun d => {d with string := some key, type := d.type ||| 512}
      else
        it.updData fun d => {d with string := some key}
    (some (o.withChildren (o.children ++ [it2])), true)
  | _, _, _ => (object, false)

/-- cJSON_AddItemToObject: add_item_to_object with constant = 0. -/
def cJSON_AddItemToObject (object : Option cJSON) (string : Option (List Char))
    (item : Option cJSON) : Option cJSON × Bool :=
  add_item_to_object object string item false

/-- The scanning loop of cJSON_GetObjectItem: walk the sibling chain;
strcmp dereferences the node's key, so a NULL key (as array children
have) is undefined behaviour, modelled as the error case. -/
def GetObjectItem_loop (name : List Char) : List cJSON → Except Unit (Option cJSON)
  | [] => .ok none
  | c :: rest =>
    match c.string with
    | none => .error ()
    | some k => if k = name then .ok (some c) else GetObjectItem_loop name rest

/-- cJSON_GetObjectItem: linear scan of the child chain in sibling
order, first key match wins; NULL object yields NULL (not-found). -/
def cJSON_GetObjectItem (object : Option cJSON) (name : List Char) :
    Except Unit (Option cJSON) :=
  match object with
  | none => .ok none
  | some o => GetObjectItem_loop name o.children

/-! ## The growable buffer (pxshot.h)

pxshot_buffer_t holds data / len / cap.  The backing storage is
modelled as a total function from indices to bytes so that
uninitialized bytes are arbitrary (the theorems quantify over the
initial contents); realloc preserves the function.  The realloc
outcome is an explicit parameter, since allocation failure is what
claim C6 is about. -/

structure pxshot_buffer_t where
  data : Nat → Nat
  len : Nat
  cap : Nat

/-- The doubling loop: while (newcap < needed) newcap *= 2.  The
guard 0 < c only rules out the infinite loop on c = 0, which no call
site reaches (the seed is 4096). -/
def growcap (needed : Nat) (c : Nat) : Nat :=
  if h : 0 < c ∧ c < needed then growcap needed (2 * c) else c
termination_by needed - c
decreasing_by omega

/-- memcpy(buf->data + buf->len, contents, realsize). -/
def memcpyAt (f : Nat → Nat) (off : Nat) (chunk : List Nat) : Nat → Nat :=
  fun i => if off ≤ i ∧ i < off + chunk.length then chunk.getD (i - off) 0 else f i

/-- Store one byte of the backing storage. -/
def storeByte (f : Nat → Nat) (j v : Nat) : Nat → Nat :=
  fun i => if i = j then v else f i

/-- The unconditional tail of the callback: copy the chunk at len,
advance len, write the trailing zero byte, return realsize. -/
def bufWrite (buf : pxshot_buffer_t) (chunk : List Nat) : Nat × pxshot_buffer_t :=
  let d1 := memcpyAt buf.data buf.len chunk
  let len2 := buf.len + chunk.length
  (chunk.length, { data := storeByte d1 len2 0, len := len2, cap := buf.cap })

/-- pxshot_write_callback: grow (seed 4096, then doubling) when
len + realsize + 1 exceeds cap; a failed realloc returns 0 and leaves
the buffer untouched; otherwise copy, advance, zero-terminate and
report realsize consumed. -/
def pxshot_write_callback (reallocOk : Bool) (chunk : List Nat)
    (buf : pxshot_buffer_t) : Nat × pxshot_buffer_t :=
  if buf.len + chunk.length + 1 > buf.cap then
    let newcap0 := if buf.cap = 0 then 4096 else buf.cap * 2
    let newcap := growcap (buf.len + chunk.length + 1) newcap0
    if reallocOk then bufWrite { data := buf.data, len := buf.len, cap := newcap } chunk
    else (0, buf)
  else bufWrite buf chunk

/-- A whole accumulation session: start from the zeroed buffer
(data = NULL modelled as an arbitrary function f0, len = cap = 0) and
append every chunk in order with realloc succeeding. -/
def appendAll (f0 : Nat → Nat) (chunks : List (List Nat)) : pxshot_buffer_t :=
  chunks.foldl (fun b ch => (pxshot_write_callback true ch b).2) ⟨f0, 0, 0⟩

/-! ## Buffer lemmas -/

/-- The doubling loop reaches a sufficient capacity, and its result is
the start value times the minimal power of two that suffices. -/
theorem growcap_spec (needed c : Nat) (hc : 0 < c) :
    needed ≤ growcap needed c ∧
      ∃ j, growcap needed c = c * 2 ^ j ∧ (j = 0 ∨ c * 2 ^ (j - 1) < needed) := by
  rw [growcap]
  by_cases h : 0 < c ∧ c < needed
  · rw [dif_pos h]
    obtain ⟨h1, j, h2, h3⟩ := growcap_spec needed (2 * c) (by omega)
    refine ⟨h1, j + 1, ?_, ?_⟩
    · rw [h2]; ring
    · right
      rcases h3 with h3 | h3
      · subst h3; simpa using h.2
      · have hj : 1 ≤ j := by
          rcases Nat.eq_zero_or_pos j with h0 | h0
          · subst h0; simp at h3; omega
          · exact h0
        have he : c * 2 ^ (j + 1 - 1) = 2 * c * 2 ^ (j - 1) := by
          rw [Nat.add_sub_cancel]
          conv_lhs => rw [show j = (j - 1) + 1 by omega]
          rw [pow_succ]
          ring
        rw [he]
        exact h3
  · rw [dif_neg h]
    refine ⟨by omega, 0, by ring, Or.inl rfl⟩
termination_by needed - c
decreasing_by omega

/-- One successful append always leaves a positive capacity. -/
theorem write_cap_pos (ch : List Nat) (b : pxshot_buffer_t) :
    0 < ((pxshot_write_callback true ch b).2).cap := by
  unfold pxshot_write_callback
  by_cases h : b.len + ch.length + 1 > b.cap
  · have h4 : (0:Nat) < (if b.cap = 0 then 4096 else b.cap * 2) := by
      split <;> omega
    have hg := (growcap_spec (b.len + ch.length + 1) _ h4).1
    simp [h, bufWrite]
    omega
  · simp [h, bufWrite]
    omega

/-- Invariant of an accumulation session: len matches the content,
the content is stored as the prefix of data, and either nothing has
been appended yet (the zeroed initial buffer) or the terminator byte
is in place and the capacity is the minimal seed-doubling power
covering len + 1. -/
def StInv (b : pxshot_buffer_t) (content : List Nat) : Prop :=
  b.len = content.length ∧
  (∀ i, i < content.length → b.data i = content.getD i 0) ∧
  ((b.cap = 0 ∧ b.len = 0) ∨
    (b.data b.len = 0 ∧
      ∃ k, b.cap = 4096 * 2 ^ k ∧ b.len + 1 ≤ b.cap ∧
        (k = 0 ∨ 4096 * 2 ^ (k - 1) < b.len + 1)))

/-- Effect of the write tail on the stored content. -/
theorem bufWrite_data (f : Nat → Nat) (len cap : Nat) (content ch : List Nat)
    (hlen : len = content.length)
    (hpre : ∀ i, i < content.length → f i = content.getD i 0) :
    ((bufWrite ⟨f, len, cap⟩ ch).2).len = (content ++ ch).length ∧
    (∀ i, i < (content ++ ch).length →
      ((bufWrite ⟨f, len, cap⟩ ch).2).data i = (content ++ ch).getD i 0) ∧
    ((bufWrite ⟨f, len, cap⟩ ch).2).data ((bufWrite ⟨f, len, cap⟩ ch).2).len = 0 ∧
    ((bufWrite ⟨f, len, cap⟩ ch).2).cap = cap := by
  refine ⟨by simp [bufWrite, hlen], ?_, by simp [bufWrite, storeByte], by simp [bufWrite]⟩
  intro i hi
  simp only [List.length_append] at hi
  simp only [bufWrite, storeByte, memcpyAt]
  have hne : ¬ i = len + ch.length := by omega
  rw [if_neg hne]
  by_cases hlt : i < content.length
  · have : ¬ (len ≤ i ∧ i < len + ch.length) := by omega
    rw [if_neg this, List.getD_append _ _ _ _ hlt]
    exact hpre i hlt
  · have hcase : len ≤ i ∧ i < len + ch.length := by omega
    rw [if_pos hcase, List.getD_append_right _ _ _ _ (by omega)]
    rw [hlen]

/-- One successful append preserves the session invariant. -/
theorem StInv_step (b : pxshot_buffer_t) (content ch : List Nat)
    (h : StInv b content) :
    StInv ((pxshot_write_callback true ch b).2) (content ++ ch) := by
  obtain ⟨f, len, cap⟩ := b
  unfold StInv at h ⊢
  obtain ⟨hlen0, hpre0, hrest⟩ := h
  have hlen : len = content.length := hlen0
  have hpre : ∀ i, i < content.length → f i = content.getD i 0 := hpre0
  by_cases hg : len + ch.length + 1 > cap
  · by_cases hc0 : cap = 0
    · -- first growth of the session: seed capacity 4096
      have hcb : (pxshot_write_callback true ch ⟨f, len, cap⟩).2
          = (bufWrite ⟨f, len, growcap (len + ch.length + 1) 4096⟩ ch).2 := by
        simp [pxshot_write_callback, hg, hc0]
      rw [hcb]
      obtain ⟨hge, j, hj, hjm⟩ :=
        growcap_spec (len + ch.length + 1) 4096 (by norm_num)
      obtain ⟨hL, hP, hZ, hC⟩ := bufWrite_data f len
        (growcap (len + ch.length + 1) 4096) content ch hlen hpre
      refine ⟨hL, hP, Or.inr ⟨hZ, j, ?_, ?_, ?_⟩⟩
      · rw [hC]; exact hj
      · rw [hC, hL, List.length_append]; omega
      · rw [hL, List.length_append]
        rcases hjm with h0 | hlt
        · exact Or.inl h0
        · right; omega
    · -- growth with existing capacity 4096 * 2 ^ k: start from its double
      rcases hrest with ⟨hcz, _⟩ | ⟨_, k, hck0, _, _⟩
      · exact absurd hcz hc0
      have hck : cap = 4096 * 2 ^ k := hck0
      have hcb : (pxshot_write_callback true ch ⟨f, len, cap⟩).2
          = (bufWrite ⟨f, len, growcap (len + ch.length + 1) (cap * 2)⟩ ch).2 := by
        simp [pxshot_write_callback, hg, hc0]
      rw [hcb]
      obtain ⟨hge, j, hj, hjm⟩ :=
        growcap_spec (len + ch.length + 1) (cap * 2) (by omega)
      obtain ⟨hL, hP, hZ, hC⟩ := bufWrite_data f len
        (growcap (len + ch.length + 1) (cap * 2)) content ch hlen hpre
      have hc2 : cap * 2 = 4096 * 2 ^ (k + 1) := by
        rw [hck, pow_succ]; ring
      refine ⟨hL, hP, Or.inr ⟨hZ, k + 1 + j, ?_, ?_, ?_⟩⟩
      · rw [hC, hj, hc2, mul_assoc, ← pow_add]
      · rw [hC, hL, List.length_append]; omega
      · right
        rw [hL, List.length_append]
        have hkj : 4096 * 2 ^ (k + 1 + j - 1) < len + ch.length + 1 := by
          rcases hjm with h0 | hlt
          · subst h0
            have he : k + 1 + 0 - 1 = k := by omega
            rw [he, ← hck]
            exact hg
          · have hle2 : 4096 * 2 ^ (k + 1 + j - 1) ≤ cap * 2 * 2 ^ (j - 1) := by
              rcases Nat.eq_zero_or_pos j with h0 | h0
              · subst h0
                simp only [Nat.zero_sub, pow_zero, mul_one, Nat.add_sub_cancel]
                rw [hc2]
                exact Nat.mul_le_mul_left 4096 (Nat.pow_le_pow_right (by norm_num) (by omega))
              · apply le_of_eq
                rw [hc2, mul_assoc, ← pow_add]
                have he2 : k + 1 + j - 1 = k + 1 + (j - 1) := by omega
                rw [he2]
            omega
        omega
  · -- no growth: capacity unchanged
    have hcb : (pxshot_write_callback true ch ⟨f, len, cap⟩).2
        = (bufWrite ⟨f, len, cap⟩ ch).2 := by
      simp [pxshot_write_callback, hg]
    rw [hcb]
    obtain ⟨hL, hP, hZ, hC⟩ := bufWrite_data f len cap content ch hlen hpre
    rcases hrest with ⟨hcz0, _⟩ | ⟨_, k, hck0, hle0, hmin0⟩
    · have hcz : cap = 0 := hcz0
      omega
    · have hck : cap = 4096 * 2 ^ k := hck0
      have hle : len + 1 ≤ cap := hle0
      have hmin : k = 0 ∨ 4096 * 2 ^ (k - 1) < len + 1 := hmin0
      refine ⟨hL, hP, Or.inr ⟨hZ, k, ?_, ?_, ?_⟩⟩
      · rw [hC]; exact hck
      · rw [hC, hL, List.length_append]; omega
      · rw [hL, List.length_append]
        rcases hmin with h0 | hlt
        · exact Or.inl h0
        · right; omega

/-- The session invariant holds after appending any chunk list to the
zeroed initial buffer. -/
theorem appendAll_inv (f0 : Nat → Nat) (chunks : List (List Nat)) :
    StInv (appendAll f0 chunks) chunks.flatten := by
  have main : ∀ (cs : List (List Nat)) (b : pxshot_buffer_t) (content : List Nat),
      StInv b content →
      StInv (cs.foldl (fun b ch => (pxshot_write_callback true ch b).2) b)
        (content ++ cs.flatten) := by
    intro cs
    induction cs with
    | nil =>
      intro b content h
      simpa using h
    | cons c cs ih =>
      intro b content h
      have h3 := ih _ _ (StInv_step b content c h)
      simpa [List.append_assoc] using h3
  have base : StInv ⟨f0, 0, 0⟩ [] := by
    refine ⟨rfl, ?_, Or.inl ⟨rfl, rfl⟩⟩
    intro i hi
    simp at hi
  simpa using main chunks ⟨f0, 0, 0⟩ [] base

/-- After at least one append the capacity is positive. -/
theorem appendAll_cap_pos (f0 : Nat → Nat) (chunks : List (List Nat))
    (h : chunks ≠ []) : 0 < (appendAll f0 chunks).cap := by
  have mono : ∀ (cs : List (List Nat)) (b : pxshot_buffer_t), 0 < b.cap →
      0 < ((cs.foldl (fun b ch => (pxshot_write_callback true ch b).2) b)).cap := by
    intro cs
    induction cs with
    | nil => intro b hb; simpa using hb
    | cons d ds ih => intro b hb; exact ih _ (write_cap_pos d b)
  cases chunks with
  | nil => exact absurd rfl h
  | cons c cs =>
    unfold appendAll
    simp only [List.foldl_cons]
    exact mono cs _ (write_cap_pos c _)

/-- C5: for every sequence of successful appends to an initially
empty growable buffer, the final length is the sum of the chunk
sizes, the first length bytes are exactly the concatenation of the
chunks, the stored byte at index length is zero, and the capacity is
4096 doubled the minimal number of times needed to fit length plus
the terminator (i.e. it was obtained by doubling from the seed 4096
until sufficient). -/
theorem C5_buffer_append_correct (f0 : Nat → Nat) (chunks : List (List Nat))
    (hne : chunks ≠ []) :
    (appendAll f0 chunks).len = (chunks.map List.length).sum ∧
    (∀ i, i < chunks.flatten.length →
      (appendAll f0 chunks).data i = chunks.flatten.getD i 0) ∧
    (appendAll f0 chunks).data (appendAll f0 chunks).len = 0 ∧
    (∃ k, (appendAll f0 chunks).cap = 4096 * 2 ^ k ∧
      (appendAll f0 chunks).len + 1 ≤ (appendAll f0 chunks).cap ∧
      (k = 0 ∨ 4096 * 2 ^ (k - 1) < (appendAll f0 chunks).len + 1)) := by
  obtain ⟨hlen, hpre, hrest⟩ := appendAll_inv f0 chunks
  have hcap := appendAll_cap_pos f0 chunks hne
  have hjoin : chunks.flatten.length = (chunks.map List.length).sum := by
    simp [List.length_flatten]
  rcases hrest with ⟨hc0, _⟩ | ⟨hz, hcapok⟩
  · omega
  · exact ⟨by rw [hlen, hjoin], hpre, hz, hcapok⟩

/-- Witness for C5 at a concrete session. -/
theorem C5_buffer_append_correct_witness :
    (([[1, 2, 3]] : List (List Nat)) ≠ []) ∧
    ((appendAll (fun _ => 7) [[1, 2, 3]]).len = ([[1, 2, 3]].map List.length).sum ∧
    (∀ i, i < ([[1, 2, 3]] : List (List Nat)).flatten.length →
      (appendAll (fun _ => 7) [[1, 2, 3]]).data i
        = ([[1, 2, 3]] : List (List Nat)).flatten.getD i 0) ∧
    (appendAll (fun _ => 7) [[1, 2, 3]]).data (appendAll (fun _ => 7) [[1, 2, 3]]).len = 0 ∧
    (∃ k, (appendAll (fun _ => 7) [[1, 2, 3]]).cap = 4096 * 2 ^ k ∧
      (appendAll (fun _ => 7) [[1, 2, 3]]).len + 1 ≤ (appendAll (fun _ => 7) [[1, 2, 3]]).cap ∧
      (k = 0 ∨ 4096 * 2 ^ (k - 1) < (appendAll (fun _ => 7) [[1, 2, 3]]).len + 1))) :=
  ⟨by simp, C5_buffer_append_correct (fun _ => 7) [[1, 2, 3]] (by simp)⟩

/-- C6: when growth is needed and the reallocation fails, the append
reports 0 bytes consumed and the buffer (contents, length, capacity)
is returned exactly as it was. -/
theorem C6_realloc_failure_leaves_buffer (buf : pxshot_buffer_t) (chunk : List Nat)
    (h : buf.len + chunk.length + 1 > buf.cap) :
    pxshot_write_callback false chunk buf = (0, buf) := by
  simp [pxshot_write_callback, h]

/-- Witness for C6 at a concrete buffer and chunk. -/
theorem C6_realloc_failure_leaves_buffer_witness :
    ((⟨fun _ => 0, 0, 0⟩ : pxshot_buffer_t).len + ([1] : List Nat).length + 1
      > (⟨fun _ => 0, 0, 0⟩ : pxshot_buffer_t).cap) ∧
    pxshot_write_callback false [1] ⟨fun _ => 0, 0, 0⟩
      = (0, (⟨fun _ => 0, 0, 0⟩ : pxshot_buffer_t)) :=
  ⟨by norm_num, C6_realloc_failure_leaves_buffer ⟨fun _ => 0, 0, 0⟩ [1] (by norm_num)⟩

/-! ## Digit bridge -/

/-- The structural digit function agrees with Nat.digits 10. -/
theorem natDigits_eq (n : Nat) : natDigits n = Nat.digits 10 n := by
  suffices h : ∀ fuel m, m ≤ fuel → toDigitsRev fuel m = Nat.digits 10 m by
    exact h n n le_rfl
  intro fuel
  induction fuel with
  | zero =>
    intro m hm
    interval_cases m
    simp [toDigitsRev]
  | succ f ih =>
    intro m hm
    match m with
    | 0 => simp [toDigitsRev]
    | k + 1 =>
      rw [show toDigitsRev (f + 1) (k + 1)
            = ((k + 1) % 10) :: toDigitsRev f ((k + 1) / 10) from rfl]
      rw [ih ((k + 1) / 10) (by omega)]
      rw [Nat.digits_def' (by norm_num : 1 < 10) (Nat.succ_pos k)]

/-! ## Claim C8: addChild argument checking -/

/-- C8 counterexample: the claim says adding a keyed child to a
container that is not an Array or Object fails with InvalidArgument
and does not link the child.  In the code add_item_to_object checks
only the three pointers for NULL and never inspects the container
type: adding a child to a Number container succeeds and links it. -/
theorem C8_counterexample :
    cJSON_AddItemToObject (some (cJSON_CreateNumber 5)) (some ("k".toList))
        (some (cJSON_CreateNumber 7))
      = (some (.node ⟨8, none, 5, 5, none⟩
          [.node ⟨8, none, 7, 7, some ("k".toList)⟩ []]), true) ∧
    (cJSON_CreateNumber 5).type &&& 255 ≠ 32 ∧
    (cJSON_CreateNumber 5).type &&& 255 ≠ 64 := by
  refine ⟨by decide, by decide, by decide⟩

/-- C8 amended: cJSON_AddItemToObject fails (returning 0 and linking
nothing, the container unchanged) exactly when the container, child
or key is NULL; when all three are non-NULL it stores the duplicated
key on the child and appends it at the tail of the container's child
chain, regardless of the container's kind. -/
theorem C8_add_item_checks_nulls_only (object : Option cJSON)
    (key : Option (List Char)) (item : Option cJSON) :
    (object = none ∨ item = none ∨ key = none →
      cJSON_AddItemToObject object key item = (object, false)) ∧
    (∀ o k it, object = some o → key = some k → item = some it →
      cJSON_AddItemToObject object key item
        = (some (o.withChildren (o.children ++
            [it.updData fun d => {d with string := some k}])), true)) := by
  constructor
  · intro h
    cases object with
    | none => rfl
    | some o =>
      cases item with
      | none => rfl
      | some it =>
        cases key with
        | none => rfl
        | some k => rcases h with h | h | h <;> simp at h
  · intro o k it ho hk hit
    subst ho; subst hk; subst hit
    rfl

/-- Witness for the amended C8 at concrete inputs: a NULL container
fails; a complete triple appends. -/
theorem C8_add_item_checks_nulls_only_witness :
    (cJSON_AddItemToObject none (some ("k".toList)) (some cJSON_New_Item)
      = (none, false)) ∧
    (cJSON_AddItemToObject (some cJSON_CreateObject) (some ("k".toList))
        (some cJSON_New_Item)
      = (some (cJSON_CreateObject.withChildren (cJSON_CreateObject.children ++
          [cJSON_New_Item.updData fun d => {d with string := some ("k".toList)}])),
         true)) :=
  ⟨(C8_add_item_checks_nulls_only none (some ("k".toList))
      (some cJSON_New_Item)).1 (Or.inl rfl),
   (C8_add_item_checks_nulls_only (some cJSON_CreateObject) (some ("k".toList))
      (some cJSON_New_Item)).2 cJSON_CreateObject ("k".toList) cJSON_New_Item
      rfl rfl rfl⟩

/-! ## Claim C9: lookup on an Array -/

instance {α β : Type} [DecidableEq α] [DecidableEq β] :
    DecidableEq (Except α β) := fun a b =>
  match a, b with
  | .ok x, .ok y =>
    if h : x = y then isTrue (by rw [h])
    else isFalse (fun hh => by cases hh; exact h rfl)
  | .error x, .error y =>
    if h : x = y then isTrue (by rw [h])
    else isFalse (fun hh => by cases hh; exact h rfl)
  | .ok _, .error _ => isFalse (fun h => by cases h)
  | .error _, .ok _ => isFalse (fun h => by cases h)

/-- C9 counterexample: the claim says lookup on an Array value is
total and returns not-found.  Parsing the array text consisting of a
bracket, the digit one and a closing bracket yields an Array with one
keyless child, and the lookup loop passes that NULL key to strcmp —
a NULL dereference (the error case of the model), not not-found. -/
theorem C9_counterexample :
    cJSON_Parse ("[1]".toList)
      = some (.node ⟨32, none, 0, 0, none⟩ [.node ⟨8, none, 1, 1, none⟩ []]) ∧
    cJSON_GetObjectItem (cJSON_Parse ("[1]".toList)) ("x".toList) = .error () := by
  refine ⟨by decide, by decide⟩

/-- C9 amended: lookup on an Array returns not-found when the array
has no children; when it has at least one child (array children carry
no key), the scan dereferences the NULL key — undefined behaviour —
instead of returning a result. -/
theorem C9_array_lookup (a : cJSON) (name : List Char)
    (hk : a.type &&& 255 = 32) :
    (a.children = [] → cJSON_GetObjectItem (some a) name = .ok none) ∧
    (∀ c cs, a.children = c :: cs → c.string = none →
      cJSON_GetObjectItem (some a) name = .error ()) := by
  constructor
  · intro h
    simp [cJSON_GetObjectItem, h, GetObjectItem_loop]
  · intro c cs hc hs
    simp [cJSON_GetObjectItem, hc, GetObjectItem_loop, hs]

/-- Witness for the amended C9 at a concrete one-element array. -/
theorem C9_array_lookup_witness :
    ((cJSON.node ⟨32, none, 0, 0, none⟩ [cJSON_New_Item]).type &&& 255 = 32) ∧
    cJSON_GetObjectItem (some (.node ⟨32, none, 0, 0, none⟩ [cJSON_New_Item]))
      ("x".toList) = .error () :=
  ⟨by decide,
   (C9_array_lookup (.node ⟨32, none, 0, 0, none⟩ [cJSON_New_Item]) ("x".toList)
      (by decide)).2 cJSON_New_Item [] rfl rfl⟩

/-! ## Claim C4: lookup returns the first matching key -/

/-- The lookup loop is List.find? on the key when every child has a
key: the scan walks the sibling chain in order and the first strcmp
match wins. -/
theorem GetObjectItem_loop_find (name : List Char) (cs : List cJSON)
    (h : ∀ c ∈ cs, c.string ≠ none) :
    GetObjectItem_loop name cs
      = .ok (cs.find? (fun c => c.string == some name)) := by
  induction cs with
  | nil => rfl
  | cons c rest ih =>
    have hc := h c (List.mem_cons_self c rest)
    cases hcs : c.string with
    | none => exact absurd hcs hc
    | some k =>
      by_cases hk : k = name
      · subst hk
        rw [List.find?_cons_of_pos _ (by simp [hcs])]
        simp [GetObjectItem_loop, hcs]
      · rw [List.find?_cons_of_neg _ (by simp [hcs, hk])]
        simp only [GetObjectItem_loop, hcs]
        rw [if_neg hk]
        exact ih (fun x hx => h x (List.mem_cons_of_mem _ hx))

/-- C4: for an Object whose children all carry keys (as parsing and
building produce), lookup returns the first child in sibling order
whose key equals the name byte for byte, or not-found; in particular
parsing the duplicate-key object text for x mapping to 1 and then to
2 and looking up x returns the Number 1 — the second occurrence is
not observable. -/
theorem C4_lookup_first_match (o : cJSON) (name : List Char)
    (hobj : o.type &&& 255 = 64)
    (hkeys : ∀ c ∈ o.children, c.string ≠ none) :
    cJSON_GetObjectItem (some o) name
      = .ok (o.children.find? (fun c => c.string == some name)) ∧
    cJSON_GetObjectItem (cJSON_Parse (lbrCh :: "\"x\":1,\"x\":2".toList ++ [rbrCh]))
        ("x".toList)
      = .ok (some (.node ⟨8, none, 1, 1, some ("x".toList)⟩ [])) := by
  refine ⟨?_, by decide⟩
  show GetObjectItem_loop name o.children = _
  exact GetObjectItem_loop_find name o.children hkeys

/-- Witness for C4 at a concrete duplicate-key object. -/
theorem C4_lookup_first_match_witness :
    ((cJSON.node ⟨64, none, 0, 0, none⟩
        [.node ⟨8, none, 1, 1, some ("x".toList)⟩ [],
         .node ⟨8, none, 2, 2, some ("x".toList)⟩ []]).type &&& 255 = 64) ∧
    (∀ c ∈ (cJSON.node ⟨64, none, 0, 0, none⟩
        [.node ⟨8, none, 1, 1, some ("x".toList)⟩ [],
         .node ⟨8, none, 2, 2, some ("x".toList)⟩ []]).children,
      c.string ≠ none) ∧
    cJSON_GetObjectItem (some (cJSON.node ⟨64, none, 0, 0, none⟩
        [.node ⟨8, none, 1, 1, some ("x".toList)⟩ [],
         .node ⟨8, none, 2, 2, some ("x".toList)⟩ []])) ("x".toList)
      = .ok ((cJSON.node ⟨64, none, 0, 0, none⟩
        [.node ⟨8, none, 1, 1, some ("x".toList)⟩ [],
         .node ⟨8, none, 2, 2, some ("x".toList)⟩ []]).children.find?
          (fun c => c.string == some ("x".toList))) :=
  ⟨by decide, by decide,
   (C4_lookup_first_match _ ("x".toList) (by decide) (by decide)).1⟩

/-! ## Claim C10: the number production -/

/-- A literal prefix check fails when the first characters differ. -/
theorem prefix_false (a c : Char) (p cs : List Char) (h : a ≠ c) :
    (a :: p).isPrefixOf (c :: cs) = false := by
  simp [List.isPrefixOf, h]

/-- Dispatch of parse_value on a minus sign or digit: none of the
literal prefixes can match, the byte is not a quote, so parse_value
hands the cursor to parse_number, which always succeeds; the item
becomes a Number carrying the accumulated value and its truncated
integer projection. -/
theorem parse_value_number (fuel : Nat) (item : cJSON) (c : Char)
    (cs : List Char) (h : c = '-' ∨ isDig c = true) :
    parse_value (fuel + 1) item (c :: cs)
      = (.ok (item.updData fun d =>
          {d with type := 8, valuedouble := (parse_number (c :: cs)).1,
                  valueint := truncQ (parse_number (c :: cs)).1})
          (parse_number (c :: cs)).2, 0) := by
  have hcs : c ≠ 'n' ∧ c ≠ 'f' ∧ c ≠ 't' ∧ c ≠ qCh := by
    rcases h with h | h
    · subst h
      refine ⟨by decide, by decide, by decide, by decide⟩
    · simp only [isDig, Bool.and_eq_true, decide_eq_true_eq] at h
      refine ⟨?_, ?_, ?_, ?_⟩ <;> (intro he; subst he; revert h; decide)
  have h1 : ("null".toList).isPrefixOf (c :: cs) = false := by
    rw [show "null".toList = 'n' :: "ull".toList from rfl]
    exact prefix_false _ _ _ _ (fun he => hcs.1 he.symm)
  have h2 : ("false".toList).isPrefixOf (c :: cs) = false := by
    rw [show "false".toList = 'f' :: "alse".toList from rfl]
    exact prefix_false _ _ _ _ (fun he => hcs.2.1 he.symm)
  have h3 : ("true".toList).isPrefixOf (c :: cs) = false := by
    rw [show "true".toList = 't' :: "rue".toList from rfl]
    exact prefix_false _ _ _ _ (fun he => hcs.2.2.1 he.symm)
  have h4 : headDflt (c :: cs) = c := rfl
  have h5 : (headDflt (c :: cs) = '-' ∨ isDig (headDflt (c :: cs)) = true) := by
    rw [h4]; exact h
  rw [parse_value]
  simp only [h1, h2, h3, h4, Bool.false_eq_true, if_false]
  rw [if_neg (fun he => hcs.2.2.2 he), if_pos h]

/-- C10: the number production never fails — on any input whose
first byte is a minus sign or a digit, parse_value succeeds via
parse_number, consuming whatever sign/digit/fraction/exponent prefix
is present.  In particular parsing the single byte minus sign
succeeds: parse_number consumes it entirely (the cursor ends past the
minus sign) and yields zero, and the entry point returns a Number
node equal to zero rather than failing. -/
theorem C10_minus_parses_as_zero :
    (∀ fuel item c cs, (c = '-' ∨ isDig c = true) →
      parse_value (fuel + 1) item (c :: cs)
        = (.ok (item.updData fun d =>
            {d with type := 8, valuedouble := (parse_number (c :: cs)).1,
                    valueint := truncQ (parse_number (c :: cs)).1})
            (parse_number (c :: cs)).2, 0)) ∧
    parse_number ("-".toList) = (0, []) ∧
    cJSON_Parse ("-".toList) = some (.node ⟨8, none, 0, 0, none⟩ []) := by
  refine ⟨fun fuel item c cs h => parse_value_number fuel item c cs h,
    by decide, by decide⟩

/-- Witness for C10 at the one-byte minus input. -/
theorem C10_minus_parses_as_zero_witness :
    (('-' : Char) = '-' ∨ isDig '-' = true) ∧
    parse_value (0 + 1) cJSON_New_Item ('-' :: [])
      = (.ok (cJSON_New_Item.updData fun d =>
          {d with type := 8, valuedouble := (parse_number ('-' :: [])).1,
                  valueint := truncQ (parse_number ('-' :: [])).1})
          (parse_number ('-' :: [])).2, 0) :=
  ⟨Or.inl rfl,
   C10_minus_parses_as_zero.1 0 cJSON_New_Item '-' [] (Or.inl rfl)⟩

/-! ## Claim C3: unterminated strings -/

/-- The string scan on plain text with no closing quote: the loop
stops at the terminator having consumed the whole remaining input,
and the returned cursor is past the end. -/
theorem scan_string_no_close (xs : List Char)
    (h : ∀ c ∈ xs, c ≠ qCh ∧ c ≠ bsCh ∧ c ≠ nulCh) :
    scan_string xs = (xs, []) := by
  induction xs with
  | nil => rfl
  | cons c cs ih =>
    obtain ⟨h1, h2, h3⟩ := h c (List.mem_cons_self c cs)
    rw [scan_string.eq_def]
    simp [h1, h2, h3, ih (fun x hx => h x (List.mem_cons_of_mem _ hx))]

/-- The string scan on plain text followed by a closing quote stops
exactly at the quote. -/
theorem scan_string_closed (xs rest : List Char)
    (h : ∀ c ∈ xs, c ≠ qCh ∧ c ≠ bsCh ∧ c ≠ nulCh) :
    scan_string (xs ++ qCh :: rest) = (xs, rest) := by
  induction xs with
  | nil =>
    rw [List.nil_append, scan_string.eq_def]
    simp
  | cons c cs ih =>
    obtain ⟨h1, h2, h3⟩ := h c (List.mem_cons_self c cs)
    rw [List.cons_append, scan_string.eq_def]
    simp [h1, h2, h3, ih (fun x hx => h x (List.mem_cons_of_mem _ hx))]

/-- The copy loop is the identity on text with no backslash. -/
theorem decode_string_id (xs : List Char) (h : ∀ c ∈ xs, c ≠ bsCh) :
    decode_string xs = xs := by
  induction xs with
  | nil => rfl
  | cons c cs ih =>
    rw [decode_string.eq_def]
    simp [h c (List.mem_cons_self c cs),
      ih (fun x hx => h x (List.mem_cons_of_mem _ hx))]

/-- Dispatch of parse_value on a double quote: the literal prefixes
cannot match and the byte is not a minus sign or digit, so control
reaches the parse_string case, which scans and decodes. -/
theorem parse_value_string (fuel : Nat) (item : cJSON) (tail : List Char) :
    parse_value (fuel + 1) item (qCh :: tail)
      = (.ok (item.updData fun d =>
          {d with type := 16,
                  valuestring := some (decode_string (scan_string tail).1)})
          (scan_string tail).2, 0) := by
  have h1 : ("null".toList).isPrefixOf (qCh :: tail) = false := by
    rw [show "null".toList = 'n' :: "ull".toList from rfl]
    exact prefix_false _ _ _ _ (by decide)
  have h2 : ("false".toList).isPrefixOf (qCh :: tail) = false := by
    rw [show "false".toList = 'f' :: "alse".toList from rfl]
    exact prefix_false _ _ _ _ (by decide)
  have h3 : ("true".toList).isPrefixOf (qCh :: tail) = false := by
    rw [show "true".toList = 't' :: "rue".toList from rfl]
    exact prefix_false _ _ _ _ (by decide)
  have h4 : headDflt (qCh :: tail) = qCh := rfl
  rw [parse_value]
  simp only [h1, h2, h3, h4, Bool.false_eq_true, if_false, eq_self_iff_true,
    if_true, List.drop_succ_cons, List.drop_zero]

/-- C3 counterexample: the input consisting of an opening double
quote followed by three letters and no closing quote contains an
unmatched string literal, yet the parse succeeds and returns a
String value holding the remaining text — parse_string never checks
that the closing quote was found. -/
theorem C3_counterexample :
    cJSON_Parse ("\"abc".toList)
      = some (.node ⟨16, some ("abc".toList), 0, 0, none⟩ []) ∧
    (∀ c ∈ "abc".toList, c ≠ qCh) := by
  refine ⟨by decide, by decide⟩

/-- C3 amended: an unterminated string literal is accepted, not
rejected: when no closing unescaped quote follows, the scan treats
the end of input as the terminator and parse_value succeeds with a
String value holding the rest of the input, the cursor past the end.
(Stated for remaining text free of quotes, backslashes and NUL.) -/
theorem C3_unterminated_string_accepted (fuel : Nat) (item : cJSON)
    (xs : List Char) (h : ∀ c ∈ xs, c ≠ qCh ∧ c ≠ bsCh ∧ c ≠ nulCh) :
    parse_value (fuel + 1) item (qCh :: xs)
      = (.ok (item.updData fun d =>
          {d with type := 16, valuestring := some xs}) [], 0) := by
  rw [parse_value_string fuel item xs, scan_string_no_close xs h]
  rw [show (decode_string (xs, ([] : List Char)).1) = decode_string xs from rfl]
  rw [decode_string_id xs (fun c hc => (h c hc).2.1)]

/-- Witness for the amended C3 at the concrete unterminated input. -/
theorem C3_unterminated_string_accepted_witness :
    (∀ c ∈ "abc".toList, c ≠ qCh ∧ c ≠ bsCh ∧ c ≠ nulCh) ∧
    parse_value (0 + 1) cJSON_New_Item (qCh :: "abc".toList)
      = (.ok (cJSON_New_Item.updData fun d =>
          {d with type := 16, valuestring := some ("abc".toList)}) [], 0) :=
  ⟨by decide,
   C3_unterminated_string_accepted 0 cJSON_New_Item ("abc".toList) (by decide)⟩

/-! ## Claim C7: number serialization -/

/-- C7: print_number checks, in order: an exactly-zero value prints
as the single character zero; otherwise a value within DBL_EPSILON of
its stored integer projection and inside [INT_MIN, INT_MAX] prints as
the plain integer text (so the number 3.0 prints as the text 3);
otherwise the general %g float format is used (so 3.5 prints as a
decimal text that reparses to within DBL_EPSILON of 3.5 — here
exactly). -/
theorem C7_print_number_order :
    (∀ it : cJSON, it.valuedouble = 0 → print_number it = ['0']) ∧
    (∀ it : cJSON, it.valuedouble ≠ 0 →
      qabs (qsub ((it.valueint : Int) : Rat) it.valuedouble) ≤ DBL_EPSILON →
      it.valuedouble ≤ 2147483647 → -2147483648 ≤ it.valuedouble →
      print_number it = intChars it.valueint) ∧
    print_number (cJSON_CreateNumber 3) = "3".toList ∧
    print_number (cJSON_CreateNumber (mkRat 7 2)) = "3.5".toList ∧
    qabs (qsub (parse_number ("3.5".toList)).1 (mkRat 7 2)) ≤ DBL_EPSILON := by
  refine ⟨?_, ?_, by decide, by decide, by decide⟩
  · intro it h
    rw [print_number, if_pos h]
  · intro it h1 h2 h3 h4
    rw [print_number, if_neg h1, if_pos ⟨h2, h3, h4⟩]

/-- Witness for C7 at concrete number nodes: the zero branch and the
integer branch. -/
theorem C7_print_number_order_witness :
    ((cJSON_CreateNumber 0).valuedouble = 0 ∧
      print_number (cJSON_CreateNumber 0) = ['0']) ∧
    ((cJSON_CreateNumber 3).valuedouble ≠ 0 ∧
      qabs (qsub (((cJSON_CreateNumber 3).valueint : Int) : Rat)
        (cJSON_CreateNumber 3).valuedouble) ≤ DBL_EPSILON ∧
      print_number (cJSON_CreateNumber 3) = intChars (cJSON_CreateNumber 3).valueint) :=
  ⟨⟨by decide, C7_print_number_order.1 (cJSON_CreateNumber 0) (by decide)⟩,
   ⟨by decide, by decide,
    C7_print_number_order.2.1 (cJSON_CreateNumber 3) (by decide) (by decide)
      (by decide) (by decide)⟩⟩

/-! ## Claim C2: leak accounting for failed parses -/

/-- The item carried by a parse result (the node the C function was
mutating, whether it succeeded or failed). -/
def PRes.itemOf : PRes → cJSON
  | .ok it _ => it
  | .fail it => it

mutual

/-- All type fields in a subtree are below 256 (no reference or
const-string flag bits), as the parser produces. -/
def typesOK : cJSON → Bool
  | .node d cs => decide (d.type < 256) && typesOKList cs

/-- typesOK on every node of a list of subtrees. -/
def typesOKList : List cJSON → Bool
  | [] => true
  | c :: cs => typesOK c && typesOKList cs

end

/-- Node count distributes over snoc. -/
theorem nodeCountList_append (a : List cJSON) (c : cJSON) :
    nodeCountList (a ++ [c]) = nodeCountList a + nodeCount c := by
  induction a with
  | nil => simp [nodeCountList]
  | cons x xs ih => simp [nodeCountList, ih]; omega

/-- typesOKList distributes over snoc. -/
theorem typesOKList_append (a : List cJSON) (c : cJSON) :
    typesOKList (a ++ [c]) = (typesOKList a && typesOK c) := by
  induction a with
  | nil => simp [typesOKList]
  | cons x xs ih => simp [typesOKList, ih]; rw [Bool.and_assoc]

/-- A type below 256 has no reference bit. -/
theorem land_256_eq_zero (t : Nat) (h : t < 256) : t &&& 256 = 0 := by
  have h8 : t.testBit 8 = false := Nat.testBit_lt_two_pow (by omega)
  have := Nat.and_two_pow t 8
  norm_num at this
  rw [this, h8]
  rfl

mutual

/-- On flag-free trees cJSON_Delete frees exactly the subtree node
count for a single node. -/
theorem delete_node_eq (t : cJSON) (h : typesOK t = true) :
    cJSON_Delete_node t = nodeCount t := by
  match t with
  | .node d cs =>
    rw [typesOK, Bool.and_eq_true, decide_eq_true_eq] at h
    rw [cJSON_Delete_node, nodeCount, if_pos (land_256_eq_zero d.type h.1)]
    rw [delete_chain_eq cs h.2]
    omega

/-- On flag-free trees cJSON_Delete frees exactly the node count of
the chain. -/
theorem delete_chain_eq (cs : List cJSON) (h : typesOKList cs = true) :
    cJSON_Delete_count cs = nodeCountList cs := by
  match cs with
  | [] => rfl
  | c :: rest =>
    rw [typesOKList, Bool.and_eq_true] at h
    rw [cJSON_Delete_count, nodeCountList, delete_node_eq c h.1,
      delete_chain_eq rest h.2]

end


/-- Chain count after linking one fresh (childless) node at the tail. -/
theorem nodeCount_snoc_leaf (d : JData) (acc : List cJSON) (x : cJSON)
    (hx : x.children = []) :
    nodeCount (.node d (acc ++ [x])) = 1 + nodeCountList acc + 1 := by
  obtain ⟨e, cs⟩ := x
  have hcs : cs = [] := hx
  subst hcs
  rw [nodeCount, nodeCountList_append]
  rw [show nodeCount (.node e []) = 1 from rfl]
  omega

/-- The allocation invariant of the recursive-descent parser: a call
that makes n allocations returns (inside the ok item or the fail
item) a tree consisting of the passed item plus exactly the n newly
allocated nodes — no allocated node is ever dropped, even on failure
— and every written type field stays below 256.  Stated for items
with an empty child list and small type field, as every call site
passes. -/
theorem parse_alloc_invariant : ∀ fuel : Nat,
    (∀ item s res n, parse_value fuel item s = (res, n) →
      item.children = [] → item.data.type < 256 →
      nodeCount res.itemOf = 1 + n ∧ typesOK res.itemOf = true) ∧
    (∀ item s res n, parse_array fuel item s = (res, n) →
      item.children = [] → item.data.type < 256 →
      nodeCount res.itemOf = 1 + n ∧ typesOK res.itemOf = true) ∧
    (∀ item s res n, parse_object fuel item s = (res, n) →
      item.children = [] → item.data.type < 256 →
      nodeCount res.itemOf = 1 + n ∧ typesOK res.itemOf = true) ∧
    (∀ item acc s res n, parse_array_loop fuel item acc s = (res, n) →
      typesOKList acc = true → item.data.type < 256 →
      nodeCount res.itemOf = 1 + nodeCountList acc + n ∧
        typesOK res.itemOf = true) ∧
    (∀ item acc s res n, parse_object_loop fuel item acc s = (res, n) →
      typesOKList acc = true → item.data.type < 256 →
      nodeCount res.itemOf = 1 + nodeCountList acc + n ∧
        typesOK res.itemOf = true) := by
  intro fuel
  induction fuel with
  | zero =>
    refine ⟨?_, ?_, ?_, ?_, ?_⟩
    · intro item s res n h hch ht
      obtain ⟨d, cs⟩ := item
      have htd : d.type < 256 := ht
      have hcs : cs = [] := hch
      subst hcs
      rw [parse_value] at h
      injection h with h1 h2
      subst h1; subst h2
      exact ⟨rfl, by simp [PRes.itemOf, typesOK, typesOKList, htd]⟩
    · intro item s res n h hch ht
      obtain ⟨d, cs⟩ := item
      have htd : d.type < 256 := ht
      have hcs : cs = [] := hch
      subst hcs
      rw [parse_array] at h
      injection h with h1 h2
      subst h1; subst h2
      exact ⟨rfl, by simp [PRes.itemOf, typesOK, typesOKList, htd]⟩
    · intro item s res n h hch ht
      obtain ⟨d, cs⟩ := item
      have htd : d.type < 256 := ht
      have hcs : cs = [] := hch
      subst hcs
      rw [parse_object] at h
      injection h with h1 h2
      subst h1; subst h2
      exact ⟨rfl, by simp [PRes.itemOf, typesOK, typesOKList, htd]⟩
    · intro item acc s res n h hacc ht
      obtain ⟨d, cs⟩ := item
      have htd : d.type < 256 := ht
      rw [parse_array_loop] at h
      injection h with h1 h2
      subst h1; subst h2
      refine ⟨?_, by simp [PRes.itemOf, cJSON.withChildren, cJSON.data,
        cJSON.children, typesOK, hacc, htd]⟩
      show nodeCount (cJSON.node d acc) = 1 + nodeCountList acc + 0
      rw [nodeCount]
      omega
    · intro item acc s res n h hacc ht
      obtain ⟨d, cs⟩ := item
      have htd : d.type < 256 := ht
      rw [parse_object_loop] at h
      injection h with h1 h2
      subst h1; subst h2
      refine ⟨?_, by simp [PRes.itemOf, cJSON.withChildren, cJSON.data,
        cJSON.children, typesOK, hacc, htd]⟩
      show nodeCount (cJSON.node d acc) = 1 + nodeCountList acc + 0
      rw [nodeCount]
      omega
  | succ f ih =>
    obtain ⟨ihv, iha, iho, ihal, ihol⟩ := ih
    refine ⟨?_, ?_, ?_, ?_, ?_⟩
    · -- parse_value at fuel + 1
      intro item s res n h hch ht
      obtain ⟨d, cs⟩ := item
      have htd : d.type < 256 := ht
      have hcs : cs = [] := hch
      subst hcs
      rw [parse_value] at h
      dsimp only at h
      split at h
      · injection h with h1 h2; subst h1; subst h2
        exact ⟨rfl, by simp [PRes.itemOf, cJSON.updData, cJSON.data,
          cJSON.children, typesOK, typesOKList]⟩
      · split at h
        · injection h with h1 h2; subst h1; subst h2
          exact ⟨rfl, by simp [PRes.itemOf, cJSON.updData, cJSON.data,
            cJSON.children, typesOK, typesOKList]⟩
        · split at h
          · injection h with h1 h2; subst h1; subst h2
            exact ⟨rfl, by simp [PRes.itemOf, cJSON.updData, cJSON.data,
              cJSON.children, typesOK, typesOKList]⟩
          · split at h
            · injection h with h1 h2; subst h1; subst h2
              exact ⟨rfl, by simp [PRes.itemOf, cJSON.updData, cJSON.data,
                cJSON.children, typesOK, typesOKList]⟩
            · split at h
              · injection h with h1 h2; subst h1; subst h2
                exact ⟨rfl, by simp [PRes.itemOf, cJSON.updData, cJSON.data,
                  cJSON.children, typesOK, typesOKList]⟩
              · split at h
                · exact iha _ _ _ _ h rfl htd
                · split at h
                  · exact iho _ _ _ _ h rfl htd
                  · injection h with h1 h2; subst h1; subst h2
                    exact ⟨rfl, by simp [PRes.itemOf, typesOK, typesOKList, htd]⟩
    · -- parse_array at fuel + 1
      intro item s res n h hch ht
      obtain ⟨d, cs⟩ := item
      have htd : d.type < 256 := ht
      have hcs : cs = [] := hch
      subst hcs
      rw [parse_array] at h
      dsimp only at h
      split at h
      · injection h with h1 h2; subst h1; subst h2
        exact ⟨rfl, by simp [PRes.itemOf, typesOK, typesOKList, htd]⟩
      · split at h
        · injection h with h1 h2; subst h1; subst h2
          exact ⟨rfl, by simp [PRes.itemOf, cJSON.updData, cJSON.data,
            cJSON.children, typesOK, typesOKList]⟩
        · split at h
          · -- first element failed
            rename_i c n1 heq
            obtain ⟨hc1, ht1⟩ := ihv _ _ _ _ heq rfl
              (by norm_num : (0 : Nat) < 256)
            simp only [PRes.itemOf] at hc1 ht1
            injection h with h1 h2; subst h1; subst h2
            refine ⟨?_, by simp [PRes.itemOf, cJSON.withChildren, cJSON.updData,
              cJSON.data, cJSON.children, typesOK, typesOKList, ht1]⟩
            show nodeCount (cJSON.node {d with type := 32} [c]) = 1 + (n1 + 1)
            rw [nodeCount, nodeCountList, nodeCountList, hc1]
            omega
          · -- first element parsed, run the loop
            rename_i c rest n1 heq
            obtain ⟨hc1, ht1⟩ := ihv _ _ _ _ heq rfl
              (by norm_num : (0 : Nat) < 256)
            simp only [PRes.itemOf] at hc1 ht1
            injection h with h1 h2; subst h1; subst h2
            obtain ⟨hc2, ht2⟩ := ihal
              ((cJSON.node d []).updData fun d => {d with type := 32}) [c]
              (skip_whitespace rest) _ _ rfl
              (by rw [typesOKList, typesOKList]; simp [ht1])
              (by norm_num : (32 : Nat) < 256)
            refine ⟨?_, ht2⟩
            rw [hc2, nodeCountList, nodeCountList, hc1]
            omega
    · -- parse_object at fuel + 1
      intro item s res n h hch ht
      obtain ⟨d, cs⟩ := item
      have htd : d.type < 256 := ht
      have hcs : cs = [] := hch
      subst hcs
      rw [parse_object] at h
      dsimp only at h
      split at h
      · injection h with h1 h2; subst h1; subst h2
        exact ⟨rfl, by simp [PRes.itemOf, typesOK, typesOKList, htd]⟩
      · split at h
        · injection h with h1 h2; subst h1; subst h2
          exact ⟨rfl, by simp [PRes.itemOf, cJSON.updData, cJSON.data,
            cJSON.children, typesOK, typesOKList]⟩
        · split at h
          · -- member key is not a quote: fresh child linked, then failure
            injection h with h1 h2; subst h1; subst h2
            exact ⟨rfl, by simp [PRes.itemOf, cJSON.withChildren, cJSON.updData,
              cJSON.data, cJSON.children, cJSON_New_Item, typesOK, typesOKList]⟩
          · split at h
            · -- missing colon after the key
              injection h with h1 h2; subst h1; subst h2
              exact ⟨rfl, by simp [PRes.itemOf, cJSON.withChildren, cJSON.updData,
                cJSON.data, cJSON.children, cJSON_New_Item, typesOK, typesOKList]⟩
            · split at h
              · -- member value failed
                rename_i c n1 heq
                obtain ⟨hc1, ht1⟩ := ihv _ _ _ _ heq rfl
                  (by norm_num : (16 : Nat) < 256)
                simp only [PRes.itemOf] at hc1 ht1
                injection h with h1 h2; subst h1; subst h2
                refine ⟨?_, by simp [PRes.itemOf, cJSON.withChildren, cJSON.updData,
                  cJSON.data, cJSON.children, typesOK, typesOKList, ht1]⟩
                show nodeCount (cJSON.node {d with type := 64} [c]) = 1 + (n1 + 1)
                rw [nodeCount, nodeCountList, nodeCountList, hc1]
                omega
              · -- member value parsed, run the loop
                rename_i c rest n1 heq
                obtain ⟨hc1, ht1⟩ := ihv _ _ _ _ heq rfl
                  (by norm_num : (16 : Nat) < 256)
                simp only [PRes.itemOf] at hc1 ht1
                injection h with h1 h2; subst h1; subst h2
                obtain ⟨hc2, ht2⟩ := ihol
                  ((cJSON.node d []).updData fun d => {d with type := 64}) [c]
                  (skip_whitespace rest) _ _ rfl
                  (by rw [typesOKList, typesOKList]; simp [ht1])
                  (by norm_num : (64 : Nat) < 256)
                refine ⟨?_, ht2⟩
                rw [hc2, nodeCountList, nodeCountList, hc1]
                omega
    · -- parse_array_loop at fuel + 1
      intro item acc s res n h hacc ht
      obtain ⟨d, cs⟩ := item
      have htd : d.type < 256 := ht
      rw [parse_array_loop] at h
      dsimp only at h
      split at h
      · split at h
        · -- new element failed
          rename_i c n1 heq
          obtain ⟨hc1, ht1⟩ := ihv _ _ _ _ heq rfl
            (by norm_num : (0 : Nat) < 256)
          simp only [PRes.itemOf] at hc1 ht1
          injection h with h1 h2; subst h1; subst h2
          refine ⟨?_, by simp [PRes.itemOf, cJSON.withChildren, cJSON.data,
            cJSON.children, typesOK, typesOKList, typesOKList_append, hacc, ht1, htd]⟩
          show nodeCount (cJSON.node d (acc ++ [c])) = 1 + nodeCountList acc + (n1 + 1)
          rw [nodeCount, nodeCountList_append, hc1]
          omega
        · -- new element parsed, continue the loop
          rename_i c rest n1 heq
          obtain ⟨hc1, ht1⟩ := ihv _ _ _ _ heq rfl
            (by norm_num : (0 : Nat) < 256)
          simp only [PRes.itemOf] at hc1 ht1
          injection h with h1 h2; subst h1; subst h2
          obtain ⟨hc2, ht2⟩ := ihal (cJSON.node d cs) (acc ++ [c])
            (skip_whitespace rest) _ _ rfl
            (by rw [typesOKList_append]; simp [hacc, ht1]) htd
          refine ⟨?_, ht2⟩
          rw [hc2, nodeCountList_append, hc1]
          omega
      · split at h
        · injection h with h1 h2; subst h1; subst h2
          refine ⟨?_, by simp [PRes.itemOf, cJSON.withChildren, cJSON.data,
            cJSON.children, typesOK, hacc, htd]⟩
          show nodeCount (cJSON.node d acc) = 1 + nodeCountList acc + 0
          rw [nodeCount]
          omega
        · injection h with h1 h2; subst h1; subst h2
          refine ⟨?_, by simp [PRes.itemOf, cJSON.withChildren, cJSON.data,
            cJSON.children, typesOK, hacc, htd]⟩
          show nodeCount (cJSON.node d acc) = 1 + nodeCountList acc + 0
          rw [nodeCount]
          omega
    · -- parse_object_loop at fuel + 1
      intro item acc s res n h hacc ht
      obtain ⟨d, cs⟩ := item
      have htd : d.type < 256 := ht
      rw [parse_object_loop] at h
      dsimp only at h
      split at h
      · split at h
        · -- member key is not a quote
          injection h with h1 h2; subst h1; subst h2
          refine ⟨?_, by simp [PRes.itemOf, cJSON.withChildren, cJSON.data,
            cJSON.children, cJSON_New_Item, typesOK, typesOKList, typesOKList_append, hacc, htd]⟩
          show nodeCount (cJSON.node d (acc ++ [cJSON_New_Item]))
            = 1 + nodeCountList acc + 1
          rw [nodeCount, nodeCountList_append]
          show 1 + (nodeCountList acc + 1) = 1 + nodeCountList acc + 1
          omega
        · split at h
          · -- missing colon after the key
            injection h with h1 h2; subst h1; subst h2
            constructor
            · exact nodeCount_snoc_leaf d acc _ rfl
            · simp [PRes.itemOf, cJSON.withChildren, cJSON.updData, cJSON.data,
                cJSON.children, cJSON_New_Item, typesOK, typesOKList, typesOKList_append, hacc, htd]
          · split at h
            · -- member value failed
              rename_i c n1 heq
              obtain ⟨hc1, ht1⟩ := ihv _ _ _ _ heq rfl
                (by norm_num : (16 : Nat) < 256)
              simp only [PRes.itemOf] at hc1 ht1
              injection h with h1 h2; subst h1; subst h2
              refine ⟨?_, by simp [PRes.itemOf, cJSON.withChildren, cJSON.data,
                cJSON.children, typesOK, typesOKList, typesOKList_append, hacc, ht1, htd]⟩
              show nodeCount (cJSON.node d (acc ++ [c]))
                = 1 + nodeCountList acc + (n1 + 1)
              rw [nodeCount, nodeCountList_append, hc1]
              omega
            · -- member value parsed, continue the loop
              rename_i c rest n1 heq
              obtain ⟨hc1, ht1⟩ := ihv _ _ _ _ heq rfl
                (by norm_num : (16 : Nat) < 256)
              simp only [PRes.itemOf] at hc1 ht1
              injection h with h1 h2; subst h1; subst h2
              obtain ⟨hc2, ht2⟩ := ihol (cJSON.node d cs) (acc ++ [c])
                (skip_whitespace rest) _ _ rfl
                (by rw [typesOKList_append]; simp [hacc, ht1]) htd
              refine ⟨?_, ht2⟩
              rw [hc2, nodeCountList_append, hc1]
              omega
      · split at h
        · injection h with h1 h2; subst h1; subst h2
          refine ⟨?_, by simp [PRes.itemOf, cJSON.withChildren, cJSON.data,
            cJSON.children, typesOK, hacc, htd]⟩
          show nodeCount (cJSON.node d acc) = 1 + nodeCountList acc + 0
          rw [nodeCount]
          omega
        · injection h with h1 h2; subst h1; subst h2
          refine ⟨?_, by simp [PRes.itemOf, cJSON.withChildren, cJSON.data,
            cJSON.children, typesOK, hacc, htd]⟩
          show nodeCount (cJSON.node d acc) = 1 + nodeCountList acc + 0
          rw [nodeCount]
          omega

/-- C2: whenever the top-level parse fails, the entry point returns
NULL (never a partial tree), and the nodes allocated during the
attempt are all freed by the cJSON_Delete call on the partial root:
the net leak is zero.  The three malformed inputs of the claim — an
object with a missing member value, an unclosed array with a trailing
comma, and the truncated literal tru — are instances. -/
theorem C2_parse_failure_no_leak :
    (∀ s p n, cJSON_Parse_instr s = (.fail p, n) → cJSON_Parse s = none) ∧
    (∀ s, cJSON_Parse s = none → cJSON_Parse_leak s = 0) ∧
    (cJSON_Parse ("tru".toList) = none ∧ cJSON_Parse_leak ("tru".toList) = 0) ∧
    (cJSON_Parse ("[1,2,".toList) = none ∧
      cJSON_Parse_leak ("[1,2,".toList) = 0) ∧
    (cJSON_Parse (lbrCh :: "\"a\":".toList ++ [rbrCh]) = none ∧
      cJSON_Parse_leak (lbrCh :: "\"a\":".toList ++ [rbrCh]) = 0) := by
  refine ⟨?_, ?_, ⟨by decide, by decide⟩, ⟨by decide, by decide⟩,
    ⟨by decide, by decide⟩⟩
  · intro s p n hr
    unfold cJSON_Parse
    rw [hr]
  · intro s h
    rcases hr : cJSON_Parse_instr s with ⟨res, n⟩
    cases res with
    | ok t rest =>
      exfalso
      unfold cJSON_Parse at h
      rw [hr] at h
      simp at h
    | fail p =>
      have hr2 : parse_value (parseFuel s) cJSON_New_Item (skip_whitespace s)
          = (.fail p, n) := hr
      obtain ⟨hc, htok⟩ := (parse_alloc_invariant (parseFuel s)).1
        cJSON_New_Item (skip_whitespace s) (.fail p) n hr2 rfl
        (by norm_num : (0 : Nat) < 256)
      simp only [PRes.itemOf] at hc htok
      unfold cJSON_Parse_leak
      rw [hr]
      have hd : cJSON_Delete_count [p] = nodeCount p := by
        rw [cJSON_Delete_count, cJSON_Delete_count, delete_node_eq p htok]
        omega
      show ((n : Int) + 1) - (cJSON_Delete_count [p] : Int) = 0
      rw [hd, hc]
      push_cast
      ring

/-- Witness for C2: applying the general leak statement at the
truncated literal input. -/
theorem C2_parse_failure_no_leak_witness :
    cJSON_Parse ("tru".toList) = none ∧ cJSON_Parse_leak ("tru".toList) = 0 :=
  ⟨by decide, C2_parse_failure_no_leak.2.1 ("tru".toList) (by decide)⟩

/-! ## Claim C1: round-trip

First the arithmetic of the digit loops: parsing the printed decimal
digits of an integer recovers the integer exactly. -/

/-- Numeric value of a digit character. -/
def digitVal (c : Char) : Nat := c.toNat - 48

/-- Value of a most-significant-first digit string. -/
def charsVal (ds : List Char) : Nat :=
  Nat.ofDigits 10 ((ds.map digitVal).reverse)

/-- Character conversion for digits below ten is faithful. -/
theorem toNat_digitChar (d : Nat) (h : d < 10) :
    (Char.ofNat (48 + d)).toNat = 48 + d := by
  have hv : Nat.isValidChar (48 + d) := by
    left
    omega
  rw [Char.ofNat, dif_pos hv]
  rfl

/-- The digit loop consumes exactly a digit string followed by a
non-digit, accumulating in base ten. -/
theorem digit_loop_spec (ds : List Char) (rest : List Char) (n : Rat)
    (hd : ∀ c ∈ ds, isDig c = true) (hr : isDig (headDflt rest) = false) :
    digit_loop n (ds ++ rest)
      = (n * 10 ^ ds.length + (charsVal ds : Rat), rest) := by
  induction ds generalizing n with
  | nil =>
    have hstep : digit_loop n rest = (n, rest) := by
      cases rest with
      | nil => rfl
      | cons c cs =>
        have hc : isDig c = false := hr
        rw [digit_loop, hc]
        simp
    rw [List.nil_append, hstep]
    have hcv : (charsVal [] : Rat) = 0 := by
      simp [charsVal, Nat.ofDigits]
    rw [Prod.mk.injEq]
    refine ⟨?_, rfl⟩
    rw [hcv]
    simp
  | cons c ds ih =>
    have hc : isDig c = true := hd c (List.mem_cons_self c ds)
    rw [List.cons_append, digit_loop, hc]
    simp only [if_true]
    rw [ih _ (fun x hx => hd x (List.mem_cons_of_mem _ hx))]
    rw [Prod.mk.injEq]
    refine ⟨?_, rfl⟩
    rw [qadd_eq, qmul_eq]
    have hval : (charsVal (c :: ds) : Rat)
        = (charsVal ds : Rat) + 10 ^ ds.length * (digitVal c : Rat) := by
      have : charsVal (c :: ds)
          = charsVal ds + 10 ^ ds.length * digitVal c := by
        rw [charsVal, charsVal, List.map_cons, List.reverse_cons,
          Nat.ofDigits_append]
        simp [Nat.ofDigits]
      rw [this]
      push_cast
      ring
    rw [hval]
    have hcast : ((c.toNat - 48 : Nat) : Rat) = (digitVal c : Rat) := rfl
    rw [hcast, List.length_cons, pow_succ]
    ring

/-- Every character printed for a natural number is a decimal digit. -/
theorem natChars_digits (n : Nat) : ∀ c ∈ natChars n, isDig c = true := by
  intro c hc
  rw [natChars, natDigits_eq, List.mem_reverse, List.mem_map] at hc
  obtain ⟨d, hd, hcd⟩ := hc
  have hlt : d < 10 := Nat.digits_lt_base (by norm_num) hd
  have ht : c.toNat = 48 + d := by
    rw [← hcd]
    exact toNat_digitChar d hlt
  simp only [isDig, ht, Bool.and_eq_true, decide_eq_true_eq]
  omega

/-- Parsing back the printed digits of a natural number recovers it. -/
theorem charsVal_natChars (n : Nat) : charsVal (natChars n) = n := by
  rw [charsVal, natChars, natDigits_eq, List.map_reverse,
    List.reverse_reverse, List.map_map]
  have hcongr : ∀ d ∈ Nat.digits 10 n,
      (digitVal ∘ fun d => Char.ofNat (48 + d)) d = id d := by
    intro d hd
    have hlt : d < 10 := Nat.digits_lt_base (by norm_num) hd
    simp only [Function.comp_apply, digitVal, toNat_digitChar d hlt, id]
    omega
  rw [List.map_congr_left hcongr, List.map_id]
  exact Nat.ofDigits_digits 10 n

/-- The first printed digit of a positive natural number is 1..9. -/
theorem natChars_head (n : Nat) (h : 0 < n) :
    49 ≤ (headDflt (natChars n)).toNat ∧ (headDflt (natChars n)).toNat ≤ 57 := by
  have hne : Nat.digits 10 n ≠ [] :=
    Nat.digits_ne_nil_iff_ne_zero.mpr (Nat.pos_iff_ne_zero.mp h)
  set l := Nat.digits 10 n with hl
  set d := l.getLast hne with hdlast
  have hd9 : d < 10 := Nat.digits_lt_base (by norm_num) (List.getLast_mem hne)
  have hd0 : d ≠ 0 := Nat.getLast_digit_ne_zero 10 (Nat.pos_iff_ne_zero.mp h)
  have hhead : (natChars n).head? = some (Char.ofNat (48 + d)) := by
    rw [natChars, natDigits_eq, ← hl, List.head?_reverse, List.getLast?_map,
      List.getLast?_eq_getLast l hne, ← hdlast]
    rfl
  have hval : headDflt (natChars n) = Char.ofNat (48 + d) := by
    rw [headDflt, List.headD_eq_head?_getD, hhead, Option.getD_some]
  rw [hval, toNat_digitChar d hd9]
  omega

/-- A cursor position at which parse_number stops: the next byte is
not a digit, a dot or an exponent marker (the NUL terminator, a
comma, a closing bracket and a closing brace all qualify). -/
def numBoundary (s : List Char) : Bool :=
  !isDig (headDflt s) && headDflt s != '.' && headDflt s != 'e'
    && headDflt s != 'E'

/-- parse_number on a nonzero digit string followed by a boundary:
the whole string is consumed and its decimal value returned. -/
theorem parse_number_digits (c : Char) (ds rest : List Char)
    (hd1 : 49 ≤ c.toNat ∧ c.toNat ≤ 57)
    (hall : ∀ x ∈ c :: ds, isDig x = true)
    (hb : numBoundary rest = true) :
    parse_number ((c :: ds) ++ rest) = ((charsVal (c :: ds) : Rat), rest) := by
  simp only [numBoundary, Bool.and_eq_true, Bool.not_eq_true',
    bne_iff_ne] at hb
  obtain ⟨⟨⟨hbdig, hbdot⟩, hbe⟩, hbE⟩ := hb
  have hcm : c ≠ '-' := by
    intro he
    subst he
    exact absurd hd1.1 (by decide)
  have hc0 : c ≠ '0' := by
    intro he
    subst he
    exact absurd hd1.1 (by decide)
  have hloop := digit_loop_spec (c :: ds) rest 0 hall hbdig
  simp only [List.cons_append] at hloop ⊢
  have hh : headDflt (c :: (ds ++ rest)) = c := rfl
  rw [parse_number]
  dsimp only
  simp only [hh]
  rw [if_neg hcm]
  dsimp only
  simp only [hh]
  rw [if_neg hc0]
  simp only [hh]
  rw [if_pos hd1, hloop]
  dsimp only
  rw [if_neg (fun hand => hbdot hand.1)]
  dsimp only
  rw [if_neg (fun hor => Or.elim hor hbe hbE)]
  dsimp only
  rw [qmul_eq, qmul_eq, qpow10_eq]
  norm_num

/-- A positive number prints at least one digit. -/
theorem natChars_ne_nil (n : Nat) (h : 0 < n) : natChars n ≠ [] := by
  intro he
  have hv := charsVal_natChars n
  rw [he] at hv
  simp [charsVal, Nat.ofDigits] at hv
  omega

/-- parse_number on a zero byte followed by a boundary: the leading
zero is skipped, no digits accumulate, and the value is zero. -/
theorem parse_number_zeroCh (rest : List Char) (hb : numBoundary rest = true) :
    parse_number ('0' :: rest) = ((0 : Rat), rest) := by
  simp only [numBoundary, Bool.and_eq_true, Bool.not_eq_true',
    bne_iff_ne] at hb
  obtain ⟨⟨⟨hbdig, hbdot⟩, hbe⟩, hbE⟩ := hb
  have hh : headDflt ('0' :: rest) = '0' := rfl
  have hnine : ¬(49 ≤ (headDflt rest).toNat ∧ (headDflt rest).toNat ≤ 57) := by
    intro hand
    apply absurd hbdig
    simp only [isDig, Bool.and_eq_true, decide_eq_true_eq, Bool.not_eq_false]
    omega
  rw [parse_number]
  dsimp only
  simp only [hh]
  rw [if_neg (by decide : ¬('0' = '-'))]
  dsimp only
  simp only [hh]
  simp only [if_true]
  simp only [List.drop_succ_cons, List.drop_zero]
  rw [if_neg hnine]
  dsimp only
  rw [if_neg (fun hand => hbdot hand.1)]
  dsimp only
  rw [if_neg (fun hor => Or.elim hor hbe hbE)]
  dsimp only
  rw [qmul_eq, qmul_eq, qpow10_eq]
  norm_num

/-- parse_number on a minus sign, a nonzero digit string and a
boundary: the whole prefix is consumed and the negated value
returned. -/
theorem parse_number_neg_digits (c : Char) (ds rest : List Char)
    (hd1 : 49 ≤ c.toNat ∧ c.toNat ≤ 57)
    (hall : ∀ x ∈ c :: ds, isDig x = true)
    (hb : numBoundary rest = true) :
    parse_number ('-' :: ((c :: ds) ++ rest))
      = ((-(charsVal (c :: ds) : Rat)), rest) := by
  simp only [numBoundary, Bool.and_eq_true, Bool.not_eq_true',
    bne_iff_ne] at hb
  obtain ⟨⟨⟨hbdig, hbdot⟩, hbe⟩, hbE⟩ := hb
  have hc0 : c ≠ '0' := by
    intro he
    subst he
    exact absurd hd1.1 (by decide)
  have hloop := digit_loop_spec (c :: ds) rest 0 hall hbdig
  simp only [List.cons_append] at hloop ⊢
  have hhm : headDflt ('-' :: (c :: (ds ++ rest))) = '-' := rfl
  have hh : headDflt (c :: (ds ++ rest)) = c := rfl
  rw [parse_number]
  dsimp only
  simp only [hhm]
  simp only [if_true]
  simp only [List.drop_succ_cons, List.drop_zero]
  simp only [hh]
  rw [if_neg hc0]
  simp only [hh]
  rw [if_pos hd1, hloop]
  dsimp only
  rw [if_neg (fun hand => hbdot hand.1)]
  dsimp only
  rw [if_neg (fun hor => Or.elim hor hbe hbE)]
  dsimp only
  rw [qmul_eq, qmul_eq, qpow10_eq]
  push_cast
  ring

/-- parse_number parses back exactly the text sprintf %d emits for
any integer, stopping at the boundary. -/
theorem parse_number_intChars (k : Int) (rest : List Char)
    (hb : numBoundary rest = true) :
    parse_number (intChars k ++ rest) = ((k : Rat), rest) := by
  rcases lt_trichotomy k 0 with hk | hk | hk
  · have hpos : 0 < k.natAbs := by omega
    obtain ⟨c, ds, hcd⟩ :=
      List.exists_cons_of_ne_nil (natChars_ne_nil k.natAbs hpos)
    have hhead := natChars_head k.natAbs hpos
    rw [hcd] at hhead
    have hall := natChars_digits k.natAbs
    rw [hcd] at hall
    have hcast : ((k.natAbs : Nat) : Rat) = -(k : Rat) := by
      rw [Int.cast_natAbs]
      push_cast
      exact abs_of_neg (by exact_mod_cast hk)
    rw [intChars, if_neg (by omega), if_pos hk, hcd, List.cons_append,
      parse_number_neg_digits c ds rest hhead hall hb, ← hcd,
      charsVal_natChars, hcast]
    rw [neg_neg]
  · subst hk
    rw [intChars, if_pos rfl]
    simp only [List.cons_append, List.nil_append]
    rw [parse_number_zeroCh rest hb]
    norm_num
  · have hpos : 0 < k.natAbs := by omega
    obtain ⟨c, ds, hcd⟩ :=
      List.exists_cons_of_ne_nil (natChars_ne_nil k.natAbs hpos)
    have hhead := natChars_head k.natAbs hpos
    rw [hcd] at hhead
    have hall := natChars_digits k.natAbs
    rw [hcd] at hall
    have hcast : ((k.natAbs : Nat) : Rat) = (k : Rat) := by
      rw [Int.cast_natAbs]
      push_cast
      exact abs_of_pos (by exact_mod_cast hk)
    rw [intChars, if_neg (by omega), if_neg (by omega), hcd,
      parse_number_digits c ds rest hhead hall hb, ← hcd,
      charsVal_natChars, hcast]

/-! ## Claim C1: the equivalence and the tree class

The spec's equivalence: same kind at every node, same number and
string payloads, same child order; keys compared on Object members
(the spec marks naming irrelevant for Array children, and the
serializer indeed drops Array-child keys). -/

mutual

/-- Spec equivalence of two trees. -/
def equiv : cJSON → cJSON → Bool
  | .node d cs, .node e es =>
    decide (d.type &&& 255 = e.type &&& 255)
    && (!decide (d.type &&& 255 = 8)
        || (decide (d.valuedouble = e.valuedouble)
            && decide (d.valueint = e.valueint)))
    && (!decide (d.type &&& 255 = 16) || decide (d.valuestring = e.valuestring))
    && (!decide (d.type &&& 255 = 32) || equivList cs es)
    && (!decide (d.type &&& 255 = 64) || equivKeyed cs es)

/-- Pointwise equivalence of Array child chains (keys ignored). -/
def equivList : List cJSON → List cJSON → Bool
  | [], [] => true
  | a :: as, b :: bs => equiv a b && equivList as bs
  | _, _ => false

/-- Pointwise equivalence of Object member chains, keys included. -/
def equivKeyed : List cJSON → List cJSON → Bool
  | [], [] => true
  | a :: as, b :: bs =>
    decide (a.string = b.string) && equiv a b && equivKeyed as bs
  | _, _ => false

end

/-- Characters needing no escaping: no double quote, no backslash,
no control bytes. -/
def SafeChars (s : List Char) : Bool :=
  s.all fun c => decide (31 < c.toNat) && !decide (c = qCh) && !decide (c = bsCh)

mutual

/-- Trees the construction API builds, restricted as the amended
claim requires: Bool and Null-free scalars as created (False, True,
String with a safe payload), Numbers whose value is exactly the
stored integer projection and inside [INT_MIN, INT_MAX], Arrays of
such trees, Objects whose members carry safe keys. -/
def Good : cJSON → Bool
  | .node d cs =>
    (decide (d.type = 1) && cs.isEmpty)
    || (decide (d.type = 2) && cs.isEmpty)
    || (decide (d.type = 8) && cs.isEmpty
        && decide (d.valuedouble = (d.valueint : Rat))
        && decide (-2147483648 ≤ d.valueint) && decide (d.valueint ≤ 2147483647))
    || (decide (d.type = 16) && cs.isEmpty
        && match d.valuestring with
           | some s => SafeChars s
           | none => false)
    || (decide (d.type = 32) && GoodList cs)
    || (decide (d.type = 64) && GoodKeyed cs)

/-- Array children: each child Good (keys irrelevant). -/
def GoodList : List cJSON → Bool
  | [] => true
  | c :: cs => Good c && GoodList cs

/-- Object members: each child Good and carrying a safe key. -/
def GoodKeyed : List cJSON → Bool
  | [] => true
  | c :: cs =>
    (match c.string with
     | some k => SafeChars k
     | none => false)
    && Good c && GoodKeyed cs

end

/-- The text between the first element and the closing bracket: a
comma and an element text per remaining element. -/
def commaTail : List (List Char) → List Char
  | [] => []
  | t :: ts => ',' :: (t ++ commaTail ts)

/-- joinComma of a nonempty list, split at the first element. -/
theorem joinComma_cons (t : List Char) (ts : List (List Char)) :
    joinComma (t :: ts) = t ++ commaTail ts := by
  induction ts generalizing t with
  | nil => simp [joinComma, commaTail]
  | cons t2 ts2 ih =>
    rw [show joinComma (t :: t2 :: ts2) = t ++ ',' :: joinComma (t2 :: ts2)
        from rfl, ih t2]
    simp [commaTail]

/-- skip_whitespace is the identity when the current byte is above
the whitespace range. -/
theorem skip_whitespace_id (s : List Char) (h : 32 < (headDflt s).toNat) :
    skip_whitespace s = s := by
  cases s with
  | nil => rfl
  | cons c cs =>
    have hc : ¬(c ≠ nulCh ∧ c.toNat ≤ 32) := by
      intro hand
      have : 32 < c.toNat := h
      omega
    rw [skip_whitespace, if_neg hc]

/-- Truncation toward zero of an exact integer is that integer. -/
theorem truncQ_intCast (k : Int) : truncQ ((k : Int) : Rat) = k := by
  have hd : ((k : Rat)).den = 1 := Rat.den_intCast k
  have hn : ((k : Rat)).num = k := Rat.num_intCast k
  rw [truncQ]
  split
  · rw [Rat.floor, if_pos hd, hn]
  · rw [Rat.ceil, if_pos hd, hn]

/-- Every subtree has at least one node. -/
theorem nodeCount_pos (t : cJSON) : 0 < nodeCount t := by
  cases t with
  | node d cs =>
    rw [nodeCount]
    omega

mutual

/-- The serializer is total on Good trees. -/
theorem Good_print_total (t : cJSON) (hg : Good t = true) :
    ∃ txt, print_value t = some txt := by
  match t with
  | .node d cs =>
    rw [Good] at hg
    simp only [Bool.or_eq_true, Bool.and_eq_true, decide_eq_true_eq,
      List.isEmpty_iff] at hg
    rcases hg with ((((⟨h1, hcs⟩ | ⟨h2, hcs⟩) | ⟨⟨⟨⟨h8, hcs⟩, _⟩, _⟩, _⟩)
      | ⟨⟨h16, hcs⟩, hvs⟩) | ⟨h32, hcl⟩) | ⟨h64, hck⟩
    · rw [print_value]
      rw [show d.type &&& 255 = 1 from by rw [h1]; decide]
      exact ⟨_, rfl⟩
    · rw [print_value]
      rw [show d.type &&& 255 = 2 from by rw [h2]; decide]
      exact ⟨_, rfl⟩
    · rw [print_value]
      rw [show d.type &&& 255 = 8 from by rw [h8]; decide]
      exact ⟨_, rfl⟩
    · rw [print_value]
      rw [show d.type &&& 255 = 16 from by rw [h16]; decide]
      match hv : d.valuestring with
      | some s => exact ⟨_, rfl⟩
      | none =>
        rw [hv] at hvs
        exact absurd hvs (by decide)
    · obtain ⟨ts, hts⟩ := GoodList_print_total cs hcl
      rw [print_value]
      rw [show d.type &&& 255 = 32 from by rw [h32]; decide]
      refine ⟨lbkCh :: (joinComma ts ++ [rbkCh]), ?_⟩
      rw [hts]
      rfl
    · obtain ⟨ts, hts⟩ := GoodKeyed_print_total cs hck
      rw [print_value]
      rw [show d.type &&& 255 = 64 from by rw [h64]; decide]
      refine ⟨lbrCh :: (joinComma ts ++ [rbrCh]), ?_⟩
      rw [hts]
      rfl

/-- print_list is total on Good chains. -/
theorem GoodList_print_total (cs : List cJSON) (hg : GoodList cs = true) :
    ∃ ts, print_list cs = some ts := by
  match cs with
  | [] => exact ⟨[], rfl⟩
  | c :: rest =>
    rw [GoodList, Bool.and_eq_true] at hg
    obtain ⟨t, ht⟩ := Good_print_total c hg.1
    obtain ⟨ts, hts⟩ := GoodList_print_total rest hg.2
    exact ⟨t :: ts, by rw [print_list, ht, hts]⟩

/-- print_members is total on Good keyed chains. -/
theorem GoodKeyed_print_total (cs : List cJSON) (hg : GoodKeyed cs = true) :
    ∃ ts, print_members cs = some ts := by
  match cs with
  | [] => exact ⟨[], rfl⟩
  | .node d cs2 :: rest =>
    rw [GoodKeyed, Bool.and_eq_true, Bool.and_eq_true] at hg
    obtain ⟨⟨hk, hgc⟩, hgr⟩ := hg
    obtain ⟨t, ht⟩ := Good_print_total (.node d cs2) hgc
    obtain ⟨ts, hts⟩ := GoodKeyed_print_total rest hgr
    match hv : d.string with
    | some k =>
      refine ⟨(print_string k ++ ':' :: t) :: ts, ?_⟩
      rw [print_members, hv, ht, hts]
    | none =>
      have : cJSON.string (.node d cs2) = none := hv
      rw [this] at hk
      exact absurd hk (by decide)

end

/-- On a Number whose value is exactly its integer projection inside
int range, print_number takes the plain-integer branch (and the zero
branch agrees with it at zero). -/
theorem print_number_good (d : JData) (cs : List cJSON)
    (hvd : d.valuedouble = (d.valueint : Rat))
    (hlo : -2147483648 ≤ d.valueint) (hhi : d.valueint ≤ 2147483647) :
    print_number (.node d cs) = intChars d.valueint := by
  rw [print_number]
  by_cases h0 : cJSON.valuedouble (.node d cs) = 0
  · rw [if_pos h0]
    have hd0 : d.valuedouble = 0 := h0
    have hk0 : d.valueint = 0 := by
      rw [hd0] at hvd
      exact_mod_cast hvd.symm
    rw [hk0]
    rfl
  · rw [if_neg h0]
    have hvd2 : cJSON.valuedouble (.node d cs) = (d.valueint : Rat) := hvd
    have hcond : qabs (qsub ((cJSON.valueint (.node d cs) : Int) : Rat)
          (cJSON.valuedouble (.node d cs))) ≤ DBL_EPSILON ∧
        cJSON.valuedouble (.node d cs) ≤ 2147483647 ∧
        -2147483648 ≤ cJSON.valuedouble (.node d cs) := by
      refine ⟨?_, ?_, ?_⟩
      · rw [hvd2, show (cJSON.valueint (.node d cs) : Rat) = (d.valueint : Rat)
            from rfl, qsub_eq, sub_self, qabs_eq, abs_zero]
        decide
      · rw [hvd2]
        exact_mod_cast hhi
      · rw [hvd2]
        exact_mod_cast hlo
    rw [if_pos hcond]
    rfl

/-- The first byte of a serialized Good tree is above the whitespace
range and is not a closing bracket. -/
theorem print_head (t : cJSON) (txt : List Char) (hg : Good t = true)
    (hp : print_value t = some txt) :
    ∃ c cs2, txt = c :: cs2 ∧ 32 < c.toNat ∧ c ≠ rbkCh := by
  match t with
  | .node d cs =>
    rw [Good] at hg
    simp only [Bool.or_eq_true, Bool.and_eq_true, decide_eq_true_eq,
      List.isEmpty_iff] at hg
    rcases hg with ((((⟨h1, hcs⟩ | ⟨h2, hcs⟩) | ⟨⟨⟨⟨h8, hcs⟩, hvd⟩, hlo⟩, hhi⟩)
      | ⟨⟨h16, hcs⟩, hvs⟩) | ⟨h32, hcl⟩) | ⟨h64, hck⟩
    · rw [print_value, show d.type &&& 255 = 1 from by rw [h1]; decide] at hp
      injection hp with hp
      exact ⟨'f', _, hp.symm, by decide, by decide⟩
    · rw [print_value, show d.type &&& 255 = 2 from by rw [h2]; decide] at hp
      injection hp with hp
      exact ⟨'t', _, hp.symm, by decide, by decide⟩
    · rw [print_value, show d.type &&& 255 = 8 from by rw [h8]; decide] at hp
      injection hp with hp
      rw [print_number_good d cs hvd hlo hhi] at hp
      rcases lt_trichotomy d.valueint 0 with hk | hk | hk
      · rw [intChars, if_neg (by omega), if_pos hk] at hp
        exact ⟨'-', _, hp.symm, by decide, by decide⟩
      · rw [intChars, if_pos hk] at hp
        exact ⟨'0', _, hp.symm, by decide, by decide⟩
      · have hpos : 0 < d.valueint.natAbs := by omega
        obtain ⟨c, ds, hcd⟩ :=
          List.exists_cons_of_ne_nil (natChars_ne_nil d.valueint.natAbs hpos)
        have hhead := natChars_head d.valueint.natAbs hpos
        rw [hcd] at hhead
        have hhc : headDflt (c :: ds) = c := rfl
        rw [hhc] at hhead
        rw [intChars, if_neg (by omega), if_neg (by omega), hcd] at hp
        refine ⟨c, ds, hp.symm, by omega, ?_⟩
        intro he
        rw [he] at hhead
        exact absurd hhead.2 (by decide)
    · rw [print_value, show d.type &&& 255 = 16 from by rw [h16]; decide] at hp
      match hv : d.valuestring with
      | some s =>
        rw [hv] at hp
        injection hp with hp
        exact ⟨qCh, _, hp.symm, by decide, by decide⟩
      | none =>
        rw [hv] at hvs
        exact absurd hvs (by decide)
    · rw [print_value, show d.type &&& 255 = 32 from by rw [h32]; decide] at hp
      match hv : print_list cs with
      | some parts =>
        rw [hv] at hp
        injection hp with hp
        exact ⟨lbkCh, _, hp.symm, by decide, by decide⟩
      | none =>
        rw [hv] at hp
        exact absurd hp (by simp)
    · rw [print_value, show d.type &&& 255 = 64 from by rw [h64]; decide] at hp
      match hv : print_members cs with
      | some parts =>
        rw [hv] at hp
        injection hp with hp
        exact ⟨lbrCh, _, hp.symm, by decide, by decide⟩
      | none =>
        rw [hv] at hp
        exact absurd hp (by simp)

/-- numBoundary looks only at the first byte. -/
theorem numBoundary_commaTail (ps : List (List Char)) (x : Char) (r : List Char)
    (hx : numBoundary (x :: r) = true) :
    numBoundary (commaTail ps ++ x :: r) = true := by
  cases ps with
  | nil => exact hx
  | cons p ps2 => rfl

/-- The byte after an element text is a comma or the supplied closer,
both above the whitespace range. -/
theorem head_commaTail_gt (ps : List (List Char)) (x : Char) (r : List Char)
    (hx : 32 < x.toNat) :
    32 < (headDflt (commaTail ps ++ x :: r)).toNat := by
  cases ps with
  | nil => exact hx
  | cons p ps2 => exact (by decide : (32 : Nat) < 44)

/-- Safe characters are not quotes, backslashes or NUL. -/
theorem SafeChars_props (s : List Char) (h : SafeChars s = true) :
    ∀ c ∈ s, c ≠ qCh ∧ c ≠ bsCh ∧ c ≠ nulCh := by
  intro c hc
  rw [SafeChars, List.all_eq_true] at h
  have hx := h c hc
  simp only [Bool.and_eq_true, Bool.not_eq_true', decide_eq_true_eq,
    decide_eq_false_iff_not] at hx
  refine ⟨hx.1.2, hx.2, ?_⟩
  intro he
  have h31 := hx.1.1
  rw [he] at h31
  exact absurd h31 (by decide)

/-- A sufficient condition for node equivalence, by cases on the low
type byte. -/
theorem equiv_node (d e : JData) (cs es : List cJSON)
    (ht : d.type &&& 255 = e.type &&& 255)
    (h8 : d.type &&& 255 = 8 →
      d.valuedouble = e.valuedouble ∧ d.valueint = e.valueint)
    (h16 : d.type &&& 255 = 16 → d.valuestring = e.valuestring)
    (h32 : d.type &&& 255 = 32 → equivList cs es = true)
    (h64 : d.type &&& 255 = 64 → equivKeyed cs es = true) :
    equiv (.node d cs) (.node e es) = true := by
  rw [equiv]
  simp only [Bool.and_eq_true, Bool.or_eq_true, Bool.not_eq_true',
    decide_eq_true_eq, decide_eq_false_iff_not]
  refine ⟨⟨⟨⟨ht, ?_⟩, ?_⟩, ?_⟩, ?_⟩
  · by_cases h : d.type &&& 255 = 8
    · exact Or.inr ⟨(h8 h).1, (h8 h).2⟩
    · exact Or.inl h
  · by_cases h : d.type &&& 255 = 16
    · exact Or.inr (h16 h)
    · exact Or.inl h
  · by_cases h : d.type &&& 255 = 32
    · exact Or.inr (h32 h)
    · exact Or.inl h
  · by_cases h : d.type &&& 255 = 64
    · exact Or.inr (h64 h)
    · exact Or.inl h

/-- The comma-joined tail is at most one byte longer than the
comma-joined whole. -/
theorem commaTail_le_joinComma (ps : List (List Char)) :
    (commaTail ps).length ≤ (joinComma ps).length + 1 := by
  cases ps with
  | nil => simp [commaTail, joinComma]
  | cons p ps2 =>
    rw [joinComma_cons, commaTail]
    simp

/-- parse_value dispatches an opening bracket to parse_array. -/
theorem parse_value_arr (fuel : Nat) (item : cJSON) (tail : List Char) :
    parse_value (fuel + 1) item (lbkCh :: tail)
      = parse_array fuel item (lbkCh :: tail) := by
  have h1 : ("null".toList).isPrefixOf (lbkCh :: tail) = false := by
    rw [show "null".toList = 'n' :: "ull".toList from rfl]
    exact prefix_false _ _ _ _ (by decide)
  have h2 : ("false".toList).isPrefixOf (lbkCh :: tail) = false := by
    rw [show "false".toList = 'f' :: "alse".toList from rfl]
    exact prefix_false _ _ _ _ (by decide)
  have h3 : ("true".toList).isPrefixOf (lbkCh :: tail) = false := by
    rw [show "true".toList = 't' :: "rue".toList from rfl]
    exact prefix_false _ _ _ _ (by decide)
  have h4 : headDflt (lbkCh :: tail) = lbkCh := rfl
  rw [parse_value]
  simp only [h1, h2, h3, h4, Bool.false_eq_true, if_false]
  rw [if_neg (by decide), if_neg (by decide)]
  rfl

/-- parse_value dispatches an opening brace to parse_object. -/
theorem parse_value_obj (fuel : Nat) (item : cJSON) (tail : List Char) :
    parse_value (fuel + 1) item (lbrCh :: tail)
      = parse_object fuel item (lbrCh :: tail) := by
  have h1 : ("null".toList).isPrefixOf (lbrCh :: tail) = false := by
    rw [show "null".toList = 'n' :: "ull".toList from rfl]
    exact prefix_false _ _ _ _ (by decide)
  have h2 : ("false".toList).isPrefixOf (lbrCh :: tail) = false := by
    rw [show "false".toList = 'f' :: "alse".toList from rfl]
    exact prefix_false _ _ _ _ (by decide)
  have h3 : ("true".toList).isPrefixOf (lbrCh :: tail) = false := by
    rw [show "true".toList = 't' :: "rue".toList from rfl]
    exact prefix_false _ _ _ _ (by decide)
  have h4 : headDflt (lbrCh :: tail) = lbrCh := rfl
  rw [parse_value]
  simp only [h1, h2, h3, h4, Bool.false_eq_true, if_false]
  rw [if_neg (by decide), if_neg (by decide), if_neg (by decide)]
  rfl

/-- parse_value consumes a literal false. -/
theorem parse_value_false (fuel : Nat) (item : cJSON) (rest : List Char) :
    parse_value (fuel + 1) item ("false".toList ++ rest)
      = (.ok (item.updData fun d => {d with type := 1}) rest, 0) := by
  have h1 : ("null".toList).isPrefixOf ("false".toList ++ rest) = false := by
    rw [show "null".toList = 'n' :: "ull".toList from rfl,
      show "false".toList ++ rest = 'f' :: ("alse".toList ++ rest) from rfl]
    exact prefix_false _ _ _ _ (by decide)
  have h2 : ("false".toList).isPrefixOf ("false".toList ++ rest) = true := by
    rw [List.isPrefixOf_iff_prefix]
    exact List.prefix_append _ _
  have h5 : List.drop 5 ("false".toList ++ rest) = rest := by
    rw [show (5 : Nat) = ("false".toList).length from rfl, List.drop_left]
  rw [parse_value]
  simp only [h1, h2, Bool.false_eq_true, if_false, if_true, h5]

/-- parse_value consumes a literal true. -/
theorem parse_value_true (fuel : Nat) (item : cJSON) (rest : List Char) :
    parse_value (fuel + 1) item ("true".toList ++ rest)
      = (.ok (item.updData fun d => {d with type := 2, valueint := 1}) rest, 0) := by
  have h1 : ("null".toList).isPrefixOf ("true".toList ++ rest) = false := by
    rw [show "null".toList = 'n' :: "ull".toList from rfl,
      show "true".toList ++ rest = 't' :: ("rue".toList ++ rest) from rfl]
    exact prefix_false _ _ _ _ (by decide)
  have h2 : ("false".toList).isPrefixOf ("true".toList ++ rest) = false := by
    rw [show "false".toList = 'f' :: "alse".toList from rfl,
      show "true".toList ++ rest = 't' :: ("rue".toList ++ rest) from rfl]
    exact prefix_false _ _ _ _ (by decide)
  have h3 : ("true".toList).isPrefixOf ("true".toList ++ rest) = true := by
    rw [List.isPrefixOf_iff_prefix]
    exact List.prefix_append _ _
  have h4 : List.drop 4 ("true".toList ++ rest) = rest := by
    rw [show (4 : Nat) = ("true".toList).length from rfl, List.drop_left]
  rw [parse_value]
  simp only [h1, h2, h3, Bool.false_eq_true, if_false, if_true, h4]

mutual

/-- A Good tree has at most as many nodes as its serialized text has
bytes (used to show the entry-point fuel suffices). -/
theorem nodeCount_le_print (t : cJSON) (txt : List Char)
    (hg : Good t = true) (hp : print_value t = some txt) :
    nodeCount t ≤ txt.length := by
  match t with
  | .node d cs =>
    rw [Good] at hg
    simp only [Bool.or_eq_true, Bool.and_eq_true, decide_eq_true_eq,
      List.isEmpty_iff] at hg
    rcases hg with ((((⟨h1, hcs⟩ | ⟨h2, hcs⟩) | ⟨⟨⟨⟨h8, hcs⟩, hvd⟩, hlo⟩, hhi⟩)
      | ⟨⟨h16, hcs⟩, hvs⟩) | ⟨h32, hcl⟩) | ⟨h64, hck⟩
    · obtain ⟨c, cs2, htxt, -, -⟩ := print_head (.node d cs) txt
        (by rw [Good]; simp [h1, hcs]) hp
      rw [nodeCount, hcs, htxt]
      simp [nodeCountList]
    · obtain ⟨c, cs2, htxt, -, -⟩ := print_head (.node d cs) txt
        (by rw [Good]; simp [h2, hcs]) hp
      rw [nodeCount, hcs, htxt]
      simp [nodeCountList]
    · obtain ⟨c, cs2, htxt, -, -⟩ := print_head (.node d cs) txt
        (by rw [Good]; simp [h8, hcs, hvd, hlo, hhi]) hp
      rw [nodeCount, hcs, htxt]
      simp [nodeCountList]
    · obtain ⟨c, cs2, htxt, -, -⟩ := print_head (.node d cs) txt
        (by rw [Good]; simp [h16, hcs, hvs]) hp
      rw [nodeCount, hcs, htxt]
      simp [nodeCountList]
    · rw [print_value, show d.type &&& 255 = 32 from by rw [h32]; decide] at hp
      match hv : print_list cs with
      | some parts =>
        rw [hv] at hp
        injection hp with hp
        have hlist := nodeCountList_le_print cs parts hcl hv
        have hct := commaTail_le_joinComma parts
        rw [nodeCount, ← hp]
        simp only [List.length_cons, List.length_append, List.length_cons,
          List.length_nil]
        omega
      | none =>
        rw [hv] at hp
        exact absurd hp (by simp)
    · rw [print_value, show d.type &&& 255 = 64 from by rw [h64]; decide] at hp
      match hv : print_members cs with
      | some parts =>
        rw [hv] at hp
        injection hp with hp
        have hlist := nodeCountKeyed_le_print cs parts hck hv
        have hct := commaTail_le_joinComma parts
        rw [nodeCount, ← hp]
        simp only [List.length_cons, List.length_append, List.length_cons,
          List.length_nil]
        omega
      | none =>
        rw [hv] at hp
        exact absurd hp (by simp)

/-- Chain version for Array children. -/
theorem nodeCountList_le_print (cs : List cJSON) (ps : List (List Char))
    (hg : GoodList cs = true) (hp : print_list cs = some ps) :
    nodeCountList cs ≤ (commaTail ps).length := by
  match cs with
  | [] =>
    rw [show print_list [] = some [] from rfl] at hp
    injection hp with hp
    rw [← hp]
    simp [nodeCountList, commaTail]
  | c :: rest =>
    rw [GoodList, Bool.and_eq_true] at hg
    rw [print_list] at hp
    match hv : print_value c, hv2 : print_list rest with
    | some t, some ts =>
      rw [hv, hv2] at hp
      injection hp with hp
      have h1 := nodeCount_le_print c t hg.1 hv
      have h2 := nodeCountList_le_print rest ts hg.2 hv2
      rw [← hp, nodeCountList, commaTail]
      simp only [List.length_cons, List.length_append]
      omega
    | some t, none =>
      rw [hv, hv2] at hp
      exact absurd hp (by simp)
    | none, _ =>
      rw [hv] at hp
      exact absurd hp (by simp)

/-- Chain version for Object members. -/
theorem nodeCountKeyed_le_print (cs : List cJSON) (ps : List (List Char))
    (hg : GoodKeyed cs = true) (hp : print_members cs = some ps) :
    nodeCountList cs ≤ (commaTail ps).length := by
  match cs with
  | [] =>
    rw [show print_members [] = some [] from rfl] at hp
    injection hp with hp
    rw [← hp]
    simp [nodeCountList, commaTail]
  | .node d cs2 :: rest =>
    rw [GoodKeyed, Bool.and_eq_true, Bool.and_eq_true] at hg
    obtain ⟨⟨hk, hgc⟩, hgr⟩ := hg
    rw [print_members] at hp
    match hv : d.string with
    | some k =>
      rw [hv] at hp
      match hv1 : print_value (.node d cs2), hv2 : print_members rest with
      | some t, some ts =>
        rw [hv1, hv2] at hp
        injection hp with hp
        have h1 := nodeCount_le_print (.node d cs2) t hgc hv1
        have h2 := nodeCountKeyed_le_print rest ts hgr hv2
        rw [← hp, nodeCountList, commaTail]
        simp only [List.length_cons, List.length_append, print_string]
        omega
      | some t, none =>
        rw [hv1, hv2] at hp
        exact absurd hp (by simp)
      | none, _ =>
        rw [hv1] at hp
        exact absurd hp (by simp)
    | none =>
      have : cJSON.string (.node d cs2) = none := hv
      rw [this] at hk
      exact absurd hk (by decide)

end

/-- parse_value on the integer text: dispatches to parse_number and
rebuilds the exact integer (both projections). -/
theorem parse_value_intChars (fuel : Nat) (item : cJSON) (k : Int)
    (rest : List Char) (hb : numBoundary rest = true) :
    parse_value (fuel + 1) item (intChars k ++ rest)
      = (.ok (item.updData fun d =>
          {d with type := 8, valuedouble := ((k : Int) : Rat),
                  valueint := k}) rest, 0) := by
  have hnum := parse_number_intChars k rest hb
  rcases lt_trichotomy k 0 with hk | hk | hk
  · have hsh : intChars k = '-' :: natChars k.natAbs := by
      rw [intChars, if_neg (by omega), if_pos hk]
    rw [hsh, List.cons_append,
      parse_value_number fuel item '-' (natChars k.natAbs ++ rest) (Or.inl rfl)]
    rw [← List.cons_append, ← hsh, hnum, truncQ_intCast]
  · subst hk
    have hsh : intChars 0 = ['0'] := rfl
    rw [hsh, List.singleton_append,
      parse_value_number fuel item '0' rest (Or.inr (by decide))]
    rw [show ('0' :: rest) = intChars 0 ++ rest from rfl, hnum, truncQ_intCast]
  · have hpos : 0 < k.natAbs := by omega
    obtain ⟨c, ds, hcd⟩ :=
      List.exists_cons_of_ne_nil (natChars_ne_nil k.natAbs hpos)
    have hhead := natChars_head k.natAbs hpos
    rw [hcd] at hhead
    have hhc : headDflt (c :: ds) = c := rfl
    rw [hhc] at hhead
    have hdig : isDig c = true := by
      simp only [isDig, Bool.and_eq_true, decide_eq_true_eq]
      omega
    have hsh : intChars k = c :: ds := by
      rw [intChars, if_neg (by omega), if_neg (by omega), hcd]
    rw [hsh, List.cons_append,
      parse_value_number fuel item c (ds ++ rest) (Or.inr hdig)]
    rw [← List.cons_append, ← hsh, hnum, truncQ_intCast]

/-- The current byte of a cons cursor. -/
theorem headDflt_cons (c : Char) (l : List Char) : headDflt (c :: l) = c := rfl

/-- skip_whitespace on a cursor whose first byte is above the
whitespace range. -/
theorem skip_whitespace_cons (c : Char) (l : List Char) (h : 32 < c.toNat) :
    skip_whitespace (c :: l) = c :: l := by
  apply skip_whitespace_id
  exact h

/-- Round-trip master induction on fuel.  First statement: parse_value
run on the serialized text of a Good tree followed by a boundary
succeeds, consumes exactly the text, rebuilds an equivalent tree and
keeps the key stored on the passed item.  The other two statements
cover the comma loops over the remaining Array elements and Object
members. -/
theorem parse_roundtrip (F : Nat) :
    (∀ t item txt rest, Good t = true → print_value t = some txt →
      item.children = [] → numBoundary rest = true → 2 * nodeCount t ≤ F →
      ∃ r n, parse_value F item (txt ++ rest) = (.ok r rest, n)
        ∧ equiv r t = true ∧ r.string = item.string)
    ∧ (∀ cs item acc ps rest, GoodList cs = true → print_list cs = some ps →
        2 * nodeCountList cs + 1 ≤ F →
        ∃ rs n, parse_array_loop F item acc (commaTail ps ++ rbkCh :: rest)
            = (.ok (item.withChildren (acc ++ rs)) rest, n)
          ∧ equivList rs cs = true)
    ∧ (∀ cs item acc ps rest, GoodKeyed cs = true → print_members cs = some ps →
        2 * nodeCountList cs + 1 ≤ F →
        ∃ rs n, parse_object_loop F item acc (commaTail ps ++ rbrCh :: rest)
            = (.ok (item.withChildren (acc ++ rs)) rest, n)
          ∧ equivKeyed rs cs = true) := by
  induction F using Nat.strong_induction_on with
  | _ F ih =>
  refine ⟨?_, ?_, ?_⟩
  · -- parse_value on a printed Good tree
    intro t item txt rest hg hp hch hnb hF
    cases t with
    | node d cs =>
    cases item with
    | node di csi =>
    have hcsi : csi = [] := hch
    subst hcsi
    have hF2 : 2 ≤ F := by
      have := nodeCount_pos (.node d cs)
      omega
    obtain ⟨F1, rfl⟩ : ∃ F1, F = F1 + 1 := ⟨F - 1, by omega⟩
    rw [Good] at hg
    simp only [Bool.or_eq_true, Bool.and_eq_true, decide_eq_true_eq,
      List.isEmpty_iff] at hg
    rcases hg with ((((⟨h1, hcs⟩ | ⟨h2, hcs⟩) | ⟨⟨⟨⟨h8, hcs⟩, hvd⟩, hlo⟩, hhi⟩)
      | ⟨⟨h16, hcs⟩, hvs⟩) | ⟨h32, hcl⟩) | ⟨h64, hck⟩
    · -- False
      rw [print_value, show d.type &&& 255 = 1 from by rw [h1]; decide] at hp
      injection hp with hp
      subst hp
      refine ⟨.node {di with type := 1} [], 0,
        parse_value_false F1 (.node di []) rest, ?_, rfl⟩
      subst hcs
      exact equiv_node _ _ _ _ (by rw [h1]) (fun h => absurd (show (1 : Nat) &&& 255 = 8 from h) (by decide))
        (fun h => absurd (show (1 : Nat) &&& 255 = 16 from h) (by decide)) (fun h => absurd (show (1 : Nat) &&& 255 = 32 from h) (by decide))
        (fun h => absurd (show (1 : Nat) &&& 255 = 64 from h) (by decide))
    · -- True
      rw [print_value, show d.type &&& 255 = 2 from by rw [h2]; decide] at hp
      injection hp with hp
      subst hp
      refine ⟨.node {di with type := 2, valueint := 1} [], 0,
        parse_value_true F1 (.node di []) rest, ?_, rfl⟩
      subst hcs
      exact equiv_node _ _ _ _ (by rw [h2]) (fun h => absurd (show (2 : Nat) &&& 255 = 8 from h) (by decide))
        (fun h => absurd (show (2 : Nat) &&& 255 = 16 from h) (by decide)) (fun h => absurd (show (2 : Nat) &&& 255 = 32 from h) (by decide))
        (fun h => absurd (show (2 : Nat) &&& 255 = 64 from h) (by decide))
    · -- Number
      rw [print_value, show d.type &&& 255 = 8 from by rw [h8]; decide] at hp
      injection hp with hp
      rw [print_number_good d cs hvd hlo hhi] at hp
      subst hp
      refine ⟨.node {di with
          type := 8,
          valuedouble := ((d.valueint : Int) : Rat),
          valueint := d.valueint} [], 0,
        parse_value_intChars F1 (.node di []) d.valueint rest hnb, ?_, rfl⟩
      subst hcs
      refine equiv_node _ _ _ _ (by rw [h8]) (fun _ => ⟨hvd.symm, rfl⟩)
        (fun h => absurd (show (8 : Nat) &&& 255 = 16 from h) (by decide)) (fun h => absurd (show (8 : Nat) &&& 255 = 32 from h) (by decide))
        (fun h => absurd (show (8 : Nat) &&& 255 = 64 from h) (by decide))
    · -- String
      rw [print_value, show d.type &&& 255 = 16 from by rw [h16]; decide] at hp
      match hv : d.valuestring with
      | none =>
        rw [hv] at hvs
        exact absurd hvs (by decide)
      | some s =>
        rw [hv] at hvs hp
        injection hp with hp
        subst hp
        have hprops := SafeChars_props s hvs
        have hshape : print_string s ++ rest = qCh :: (s ++ qCh :: rest) := by
          rw [print_string]
          simp
        rw [hshape, parse_value_string F1 (.node di []) (s ++ qCh :: rest)]
        rw [scan_string_closed s rest hprops]
        rw [decode_string_id s (fun c hc => (hprops c hc).2.1)]
        refine ⟨.node {di with type := 16, valuestring := some s} [], 0,
          rfl, ?_, rfl⟩
        subst hcs
        refine equiv_node _ _ _ _ (by rw [h16]) (fun h => absurd (show (16 : Nat) &&& 255 = 8 from h) (by decide))
          (fun _ => by rw [hv]) (fun h => absurd (show (16 : Nat) &&& 255 = 32 from h) (by decide))
          (fun h => absurd (show (16 : Nat) &&& 255 = 64 from h) (by decide))
    · -- Array
      rw [print_value, show d.type &&& 255 = 32 from by rw [h32]; decide] at hp
      match hv : print_list cs with
      | none =>
        rw [hv] at hp
        exact absurd hp (by simp)
      | some parts =>
        rw [hv] at hp
        injection hp with hp
        subst hp
        have hncl : 1 + nodeCountList cs = nodeCount (.node d cs) := by
          rw [nodeCount]
        obtain ⟨F2, rfl⟩ : ∃ F2, F1 = F2 + 1 := by
          refine ⟨F1 - 1, ?_⟩
          rw [nodeCount] at hF
          omega
        have hshape : (lbkCh :: (joinComma parts ++ [rbkCh])) ++ rest
            = lbkCh :: (joinComma parts ++ rbkCh :: rest) := by
          simp
        rw [hshape, parse_value_arr (F2 + 1) (.node di []) _, parse_array]
        rw [if_neg (fun hne => hne rfl)]
        dsimp only
        simp only [List.drop_succ_cons, List.drop_zero]
        cases cs with
        | nil =>
          rw [show print_list [] = some [] from rfl] at hv
          injection hv with hv
          subst hv
          rw [show joinComma ([] : List (List Char)) = [] from rfl,
            List.nil_append]
          rw [skip_whitespace_cons rbkCh rest (by decide)]
          rw [headDflt_cons, if_pos rfl]
          refine ⟨.node {di with type := 32} [], 0, rfl, ?_, rfl⟩
          exact equiv_node _ _ _ _ (by rw [h32]) (fun h => absurd (show (32 : Nat) &&& 255 = 8 from h) (by decide))
            (fun h => absurd (show (32 : Nat) &&& 255 = 16 from h) (by decide)) (fun _ => rfl)
            (fun h => absurd (show (32 : Nat) &&& 255 = 64 from h) (by decide))
        | cons c crest =>
          rw [GoodList, Bool.and_eq_true] at hcl
          rw [print_list] at hv
          match hv1 : print_value c, hv2 : print_list crest with
          | none, _ =>
            rw [hv1] at hv
            exact absurd hv (by simp)
          | some t0, none =>
            rw [hv1, hv2] at hv
            exact absurd hv (by simp)
          | some t0, some ts =>
            rw [hv1, hv2] at hv
            injection hv with hv
            subst hv
            obtain ⟨c0, t0r, ht0, hc0gt, hc0ne⟩ := print_head c t0 hcl.1 hv1
            have hshape2 : joinComma (t0 :: ts) ++ rbkCh :: rest
                = t0 ++ (commaTail ts ++ rbkCh :: rest) := by
              rw [joinComma_cons]
              simp
            rw [hshape2]
            have hhead : headDflt (t0 ++ (commaTail ts ++ rbkCh :: rest)) = c0 := by
              rw [ht0]
              rfl
            have hgt : 32 < (headDflt (t0 ++ (commaTail ts ++ rbkCh :: rest))).toNat := by
              rw [hhead]
              exact hc0gt
            rw [skip_whitespace_id _ hgt, skip_whitespace_id _ hgt]
            rw [if_neg (by rw [hhead]; exact hc0ne)]
            rw [nodeCount, nodeCountList] at hF
            obtain ⟨c1, n1, hpv, heq1, hstr1⟩ :=
              (ih F2 (by omega)).1 c cJSON_New_Item t0
                (commaTail ts ++ rbkCh :: rest) hcl.1 hv1 rfl
                (numBoundary_commaTail ts rbkCh rest rfl)
                (by have := nodeCount_pos c; omega)
            rw [hpv]
            dsimp only
            rw [skip_whitespace_id _
              (head_commaTail_gt ts rbkCh rest (by decide))]
            obtain ⟨rs, n2, hloop, heqL⟩ :=
              (ih F2 (by omega)).2.1 crest
                (cJSON.node (JData.mk 32 di.valuestring di.valueint
                  di.valuedouble di.string) []) [c1] ts rest hcl.2 hv2
                (by have := nodeCount_pos c; omega)
            rw [show (cJSON.node di []).updData
                  (fun d => {d with type := 32})
                = cJSON.node (JData.mk 32 di.valuestring di.valueint
                    di.valuedouble di.string) [] from rfl]
            rw [hloop]
            refine ⟨cJSON.node (JData.mk 32 di.valuestring di.valueint
                di.valuedouble di.string) ([c1] ++ rs), n1 + 1 + n2, rfl, ?_, rfl⟩
            refine equiv_node _ _ _ _ (by rw [h32]) (fun h => absurd (show (32 : Nat) &&& 255 = 8 from h) (by decide))
              (fun h => absurd (show (32 : Nat) &&& 255 = 16 from h) (by decide)) (fun _ => ?_)
              (fun h => absurd (show (32 : Nat) &&& 255 = 64 from h) (by decide))
            rw [List.singleton_append, equivList, heq1, heqL]
            rfl
    · -- Object
      rw [print_value, show d.type &&& 255 = 64 from by rw [h64]; decide] at hp
      match hv : print_members cs with
      | none =>
        rw [hv] at hp
        exact absurd hp (by simp)
      | some parts =>
        rw [hv] at hp
        injection hp with hp
        subst hp
        obtain ⟨F2, rfl⟩ : ∃ F2, F1 = F2 + 1 := by
          refine ⟨F1 - 1, ?_⟩
          rw [nodeCount] at hF
          omega
        have hshape : (lbrCh :: (joinComma parts ++ [rbrCh])) ++ rest
            = lbrCh :: (joinComma parts ++ rbrCh :: rest) := by
          simp
        rw [hshape, parse_value_obj (F2 + 1) (.node di []) _, parse_object]
        rw [if_neg (fun hne => hne rfl)]
        dsimp only
        simp only [List.drop_succ_cons, List.drop_zero]
        cases cs with
        | nil =>
          rw [show print_members [] = some [] from rfl] at hv
          injection hv with hv
          subst hv
          rw [show joinComma ([] : List (List Char)) = [] from rfl,
            List.nil_append]
          rw [skip_whitespace_cons rbrCh rest (by decide)]
          rw [headDflt_cons, if_pos rfl]
          refine ⟨.node {di with type := 64} [], 0, rfl, ?_, rfl⟩
          exact equiv_node _ _ _ _ (by rw [h64]) (fun h => absurd (show (64 : Nat) &&& 255 = 8 from h) (by decide))
            (fun h => absurd (show (64 : Nat) &&& 255 = 16 from h) (by decide)) (fun h => absurd (show (64 : Nat) &&& 255 = 32 from h) (by decide))
            (fun _ => rfl)
        | cons c crest =>
          rw [GoodKeyed, Bool.and_eq_true, Bool.and_eq_true] at hck
          obtain ⟨⟨hkk, hgc⟩, hgr⟩ := hck
          cases c with
          | node dc cs2 =>
          rw [print_members] at hv
          match hvk : dc.string with
          | none =>
            have : cJSON.string (.node dc cs2) = none := hvk
            rw [this] at hkk
            exact absurd hkk (by decide)
          | some k =>
            have hks : cJSON.string (.node dc cs2) = some k := hvk
            rw [hks] at hkk
            rw [hvk] at hv
            match hv1 : print_value (.node dc cs2), hv2 : print_members crest with
            | none, _ =>
              rw [hv1] at hv
              exact absurd hv (by simp)
            | some t0, none =>
              rw [hv1, hv2] at hv
              exact absurd hv (by simp)
            | some t0, some ts =>
              rw [hv1, hv2] at hv
              injection hv with hv
              subst hv
              obtain ⟨c0, t0r, ht0, hc0gt, hc0ne⟩ :=
                print_head (.node dc cs2) t0 hgc hv1
              have hkprops := SafeChars_props k hkk
              have hshape2 : joinComma ((print_string k ++ ':' :: t0) :: ts)
                    ++ rbrCh :: rest
                  = qCh :: (k ++ qCh ::
                      (':' :: (t0 ++ (commaTail ts ++ rbrCh :: rest)))) := by
                rw [joinComma_cons, print_string]
                simp
              rw [hshape2]
              rw [skip_whitespace_cons qCh _ (by decide),
                skip_whitespace_cons qCh _ (by decide)]
              rw [headDflt_cons]
              rw [if_neg (show ¬(qCh = rbrCh) from by decide)]
              rw [if_neg (fun hne => hne rfl)]
              simp only [List.drop_succ_cons, List.drop_zero]
              rw [scan_string_closed k _ hkprops]
              rw [skip_whitespace_cons ':' _ (by decide)]
              rw [if_neg (fun hne => hne rfl)]
              dsimp only
              simp only [List.drop_succ_cons, List.drop_zero]
              have hheadt : headDflt (t0 ++ (commaTail ts ++ rbrCh :: rest)) = c0 := by
                rw [ht0]
                rfl
              rw [skip_whitespace_id _ (by rw [hheadt]; exact hc0gt)]
              rw [nodeCount, nodeCountList] at hF
              obtain ⟨c1, n1, hpv, heq1, hstr1⟩ :=
                (ih F2 (by omega)).1 (.node dc cs2)
                  (cJSON_New_Item.updData fun d0 =>
                    {d0 with type := 16, valuestring := none,
                             string := some (decode_string k)})
                  t0 (commaTail ts ++ rbrCh :: rest) hgc hv1 rfl
                  (numBoundary_commaTail ts rbrCh rest rfl)
                  (by have := nodeCount_pos (.node dc cs2); omega)
              rw [hpv]
              dsimp only
              rw [skip_whitespace_id _
                (head_commaTail_gt ts rbrCh rest (by decide))]
              obtain ⟨rs, n2, hloop, heqK⟩ :=
                (ih F2 (by omega)).2.2 crest
                  (cJSON.node (JData.mk 64 di.valuestring di.valueint
                    di.valuedouble di.string) []) [c1] ts rest hgr hv2
                  (by have := nodeCount_pos (.node dc cs2); omega)
              rw [show (cJSON.node di []).updData
                    (fun d => {d with type := 64})
                  = cJSON.node (JData.mk 64 di.valuestring di.valueint
                      di.valuedouble di.string) [] from rfl]
              rw [hloop]
              refine ⟨cJSON.node (JData.mk 64 di.valuestring di.valueint
                  di.valuedouble di.string) ([c1] ++ rs), n1 + 1 + n2, rfl, ?_, rfl⟩
              refine equiv_node _ _ _ _ (by rw [h64]) (fun h => absurd (show (64 : Nat) &&& 255 = 8 from h) (by decide))
                (fun h => absurd (show (64 : Nat) &&& 255 = 16 from h) (by decide)) (fun h => absurd (show (64 : Nat) &&& 255 = 32 from h) (by decide))
                (fun _ => ?_)
              rw [List.singleton_append, equivKeyed, heq1, heqK]
              rw [hstr1, hks]
              rw [show cJSON.string (cJSON_New_Item.updData fun d0 =>
                  {d0 with type := 16, valuestring := none,
                           string := some (decode_string k)})
                = some (decode_string k) from rfl]
              rw [decode_string_id k (fun c hc => (hkprops c hc).2.1)]
              simp
  · -- the Array comma loop
    intro cs item acc ps rest hg hp hF
    obtain ⟨F1, rfl⟩ : ∃ F1, F = F1 + 1 := ⟨F - 1, by omega⟩
    cases cs with
    | nil =>
      rw [show print_list [] = some [] from rfl] at hp
      injection hp with hp
      subst hp
      rw [show commaTail ([] : List (List Char)) = [] from rfl, List.nil_append]
      rw [parse_array_loop, headDflt_cons]
      rw [if_neg (show ¬(rbkCh = ',') from by decide), if_pos rfl]
      refine ⟨[], 0, ?_, rfl⟩
      rw [List.append_nil]
      rfl
    | cons c crest =>
      rw [GoodList, Bool.and_eq_true] at hg
      rw [print_list] at hp
      match hv1 : print_value c, hv2 : print_list crest with
      | none, _ =>
        rw [hv1] at hp
        exact absurd hp (by simp)
      | some t0, none =>
        rw [hv1, hv2] at hp
        exact absurd hp (by simp)
      | some t0, some ts =>
        rw [hv1, hv2] at hp
        injection hp with hp
        subst hp
        obtain ⟨c0, t0r, ht0, hc0gt, hc0ne⟩ := print_head c t0 hg.1 hv1
        have hshape : commaTail (t0 :: ts) ++ rbkCh :: rest
            = ',' :: (t0 ++ (commaTail ts ++ rbkCh :: rest)) := by
          rw [commaTail]
          simp
        rw [hshape, parse_array_loop, headDflt_cons, if_pos rfl]
        simp only [List.drop_succ_cons, List.drop_zero]
        have hheadt : headDflt (t0 ++ (commaTail ts ++ rbkCh :: rest)) = c0 := by
          rw [ht0]
          rfl
        rw [skip_whitespace_id _ (by rw [hheadt]; exact hc0gt)]
        rw [nodeCountList] at hF
        obtain ⟨c1, n1, hpv, heq1, hstr1⟩ :=
          (ih F1 (by omega)).1 c cJSON_New_Item t0
            (commaTail ts ++ rbkCh :: rest) hg.1 hv1 rfl
            (numBoundary_commaTail ts rbkCh rest rfl)
            (by have := nodeCount_pos c; omega)
        rw [hpv]
        dsimp only
        rw [skip_whitespace_id _ (head_commaTail_gt ts rbkCh rest (by decide))]
        obtain ⟨rs, n2, hloop, heqL⟩ :=
          (ih F1 (by omega)).2.1 crest item (acc ++ [c1]) ts rest hg.2 hv2
            (by have := nodeCount_pos c; omega)
        rw [hloop]
        refine ⟨c1 :: rs, n1 + 1 + n2, ?_, ?_⟩
        · rw [List.append_assoc, List.singleton_append]
        · rw [equivList, heq1, heqL]
          rfl
  · -- the Object comma loop
    intro cs item acc ps rest hg hp hF
    obtain ⟨F1, rfl⟩ : ∃ F1, F = F1 + 1 := ⟨F - 1, by omega⟩
    cases cs with
    | nil =>
      rw [show print_members [] = some [] from rfl] at hp
      injection hp with hp
      subst hp
      rw [show commaTail ([] : List (List Char)) = [] from rfl, List.nil_append]
      rw [parse_object_loop, headDflt_cons]
      rw [if_neg (show ¬(rbrCh = ',') from by decide), if_pos rfl]
      refine ⟨[], 0, ?_, rfl⟩
      rw [List.append_nil]
      rfl
    | cons c crest =>
      rw [GoodKeyed, Bool.and_eq_true, Bool.and_eq_true] at hg
      obtain ⟨⟨hkk, hgc⟩, hgr⟩ := hg
      cases c with
      | node dc cs2 =>
      rw [print_members] at hp
      match hvk : dc.string with
      | none =>
        have : cJSON.string (.node dc cs2) = none := hvk
        rw [this] at hkk
        exact absurd hkk (by decide)
      | some k =>
        have hks : cJSON.string (.node dc cs2) = some k := hvk
        rw [hks] at hkk
        rw [hvk] at hp
        match hv1 : print_value (.node dc cs2), hv2 : print_members crest with
        | none, _ =>
          rw [hv1] at hp
          exact absurd hp (by simp)
        | some t0, none =>
          rw [hv1, hv2] at hp
          exact absurd hp (by simp)
        | some t0, some ts =>
          rw [hv1, hv2] at hp
          injection hp with hp
          subst hp
          obtain ⟨c0, t0r, ht0, hc0gt, hc0ne⟩ :=
            print_head (.node dc cs2) t0 hgc hv1
          have hkprops := SafeChars_props k hkk
          have hshape : commaTail ((print_string k ++ ':' :: t0) :: ts)
                ++ rbrCh :: rest
              = ',' :: (qCh :: (k ++ qCh ::
                  (':' :: (t0 ++ (commaTail ts ++ rbrCh :: rest))))) := by
            rw [commaTail, print_string]
            simp
          rw [hshape, parse_object_loop, headDflt_cons, if_pos rfl]
          simp only [List.drop_succ_cons, List.drop_zero]
          rw [skip_whitespace_cons qCh _ (by decide)]
          rw [if_neg (fun hne => hne rfl)]
          simp only [List.drop_succ_cons, List.drop_zero]
          rw [scan_string_closed k _ hkprops]
          rw [skip_whitespace_cons ':' _ (by decide)]
          rw [if_neg (fun hne => hne rfl)]
          dsimp only
          simp only [List.drop_succ_cons, List.drop_zero]
          have hheadt : headDflt (t0 ++ (commaTail ts ++ rbrCh :: rest)) = c0 := by
            rw [ht0]
            rfl
          rw [skip_whitespace_id _ (by rw [hheadt]; exact hc0gt)]
          rw [nodeCountList] at hF
          obtain ⟨c1, n1, hpv, heq1, hstr1⟩ :=
            (ih F1 (by omega)).1 (.node dc cs2)
              (cJSON_New_Item.updData fun d0 =>
                {d0 with type := 16, valuestring := none,
                         string := some (decode_string k)})
              t0 (commaTail ts ++ rbrCh :: rest) hgc hv1 rfl
              (numBoundary_commaTail ts rbrCh rest rfl)
              (by have := nodeCount_pos (.node dc cs2); omega)
          rw [hpv]
          dsimp only
          rw [skip_whitespace_id _ (head_commaTail_gt ts rbrCh rest (by decide))]
          obtain ⟨rs, n2, hloop, heqK⟩ :=
            (ih F1 (by omega)).2.2 crest item (acc ++ [c1]) ts rest hgr hv2
              (by have := nodeCount_pos (.node dc cs2); omega)
          rw [hloop]
          refine ⟨c1 :: rs, n1 + 1 + n2, ?_, ?_⟩
          · rw [List.append_assoc, List.singleton_append]
          · rw [equivKeyed, heq1, heqK]
            rw [hstr1, hks]
            rw [show cJSON.string (cJSON_New_Item.updData fun d0 =>
                {d0 with type := 16, valuestring := none,
                         string := some (decode_string k)})
              = some (decode_string k) from rfl]
            rw [decode_string_id k (fun c hc => (hkprops c hc).2.1)]
            simp

/-- C1 counterexample: the construction API can build a tree that
contains no string payloads at all (hence nothing requiring escaping)
whose serialization does not reparse to an equivalent tree.
cJSON_CreateNumber (1 + 2 ^ (-52)) stores a value within DBL_EPSILON
of its integer projection 1, so print_number emits the plain text 1,
which reparses to the Number 1 — a different value, so the trees are
not equivalent (same-kind nodes but different number payloads). -/
theorem C1_counterexample :
    print_value (cJSON_CreateNumber (mkRat 4503599627370497 4503599627370496))
        = some ['1']
      ∧ (cJSON_Parse ['1']).map
          (fun p => equiv p (cJSON_CreateNumber
            (mkRat 4503599627370497 4503599627370496)))
        = some false := by
  decide

/-- C1 (amended): for every tree built from the construction API
whose string payloads and keys are free of double quotes, backslashes
and control bytes, and whose Numbers carry an exact integer value
inside [-2^31, 2^31 - 1] (the stored value equals its integer
projection), serializing and reparsing yields an equivalent tree:
same kind at every node, same number and string payloads, same child
order, and same keys on Object members (Array children lose their
keys in the serialized form, which carries no names for array
elements, so their keys are not compared — the spec itself declares
naming irrelevant for Array children).  Without the integer
restriction on Numbers the claim is false (see the counterexample):
print_number collapses any value within DBL_EPSILON of its integer
projection to the plain integer text. -/
theorem C1_good_roundtrip (t : cJSON) (hg : Good t = true) :
    ∃ txt p, print_value t = some txt ∧ cJSON_Parse txt = some p
      ∧ equiv p t = true := by
  obtain ⟨txt, hp⟩ := Good_print_total t hg
  obtain ⟨c0, cs0, htxt, hgt, -⟩ := print_head t txt hg hp
  have hlen := nodeCount_le_print t txt hg hp
  have hfuel : 2 * nodeCount t ≤ parseFuel txt := by
    rw [parseFuel]
    omega
  obtain ⟨r, n, hpv, heq, -⟩ :=
    (parse_roundtrip (parseFuel txt)).1 t cJSON_New_Item txt [] hg hp rfl rfl
      hfuel
  rw [List.append_nil] at hpv
  refine ⟨txt, r, hp, ?_, heq⟩
  rw [cJSON_Parse, cJSON_Parse_instr]
  rw [show skip_whitespace txt = txt from by
    rw [htxt]; exact skip_whitespace_cons c0 cs0 hgt]
  rw [hpv]

/-- C1 witness: a Good tree built through the API — an Object holding
a Number, a Bool, a String and an Array with one Number element (the
array element carries a key because cJSON_AddItemToObject is the only
add function; its key is dropped by serialization and ignored by the
equivalence, as the spec declares naming irrelevant for Array
children). -/
theorem C1_good_roundtrip_witness :
    Good (((cJSON_AddItemToObject
        (cJSON_AddItemToObject
          (cJSON_AddItemToObject
            (cJSON_AddItemToObject (some cJSON_CreateObject)
              (some ['a']) (some (cJSON_CreateNumber 7))).1
            (some ['b']) (some (cJSON_CreateBool 1))).1
          (some ['s']) (some (cJSON_CreateString ['x', 'y']))).1
        (some ['c'])
        (some (((cJSON_AddItemToObject (some cJSON_CreateArray)
          (some ['e']) (some (cJSON_CreateNumber (-5)))).1).getD
            cJSON_New_Item))).1).getD cJSON_New_Item) = true
    ∧ ∃ txt p,
        print_value (((cJSON_AddItemToObject
            (cJSON_AddItemToObject
              (cJSON_AddItemToObject
                (cJSON_AddItemToObject (some cJSON_CreateObject)
                  (some ['a']) (some (cJSON_CreateNumber 7))).1
                (some ['b']) (some (cJSON_CreateBool 1))).1
              (some ['s']) (some (cJSON_CreateString ['x', 'y']))).1
            (some ['c'])
            (some (((cJSON_AddItemToObject (some cJSON_CreateArray)
              (some ['e']) (some (cJSON_CreateNumber (-5)))).1).getD
                cJSON_New_Item))).1).getD cJSON_New_Item) = some txt
        ∧ cJSON_Parse txt = some p
        ∧ equiv p (((cJSON_AddItemToObject
            (cJSON_AddItemToObject
              (cJSON_AddItemToObject
                (cJSON_AddItemToObject (some cJSON_CreateObject)
                  (some ['a']) (some (cJSON_CreateNumber 7))).1
                (some ['b']) (some (cJSON_CreateBool 1))).1
              (some ['s']) (some (cJSON_CreateString ['x', 'y']))).1
            (some ['c'])
            (some (((cJSON_AddItemToObject (some cJSON_CreateArray)
              (some ['e']) (some (cJSON_CreateNumber (-5)))).1).getD
                cJSON_New_Item))).1).getD cJSON_New_Item) = true :=
  ⟨by decide, C1_good_roundtrip _ (by decide)⟩
